import Mathlib

/-!
# Harmonic notch cascade (`notch_harmonics.c`)

A shallow embedding of the filter core of the LADSPA plugin: the structs
`FilterStage` and `Filter`, and the functions `updateParameters`,
`instantiateFilter`, `connectPortToFilter` and `runFilter`.

Modelling conventions.

* `LADSPA_Data` (a C `float`) is an arbitrary linearly ordered field `α`
  (with a floor function where a value is cast to `int`); rounding is not
  modelled.  Statements about trigonometry are made at `α = ℝ`.
* `cos` and `M_PI` come from `<math.h>`, which is not part of the repository:
  they are parameters of every function that reaches `updateParameters`.
* `int nstages` is an `Int`; `unsigned long` values are `Nat`.
* The array `stages[MAX_STAGES]` is a map from the index to the stage; only the
  indices below `MAX_STAGES` exist in the C struct.
* A `LADSPA_Data *` is the number of the host array it points to, and the host
  memory maps that number and an index to the sample stored there.  Two
  pointers are therefore either the same array or two separate arrays.
* `stageSeq`, `stageEnd`, `cascadeSeq` and `cascadeEnd` specify a cascade on
  whole sequences; `runFilter_spec` relates `runFilter` to them.  Statements
  about the output block assume `nstages >= 1`, which `reachable_nstages` shows
  for every instance a host can hold.
-/

namespace NotchHarmonics

/-- The macro `MAX_STAGES`. -/
def MAX_STAGES : Nat := 23

/-- The macro `IO_INPUT`. -/
def IO_INPUT : Nat := 0

/-- The macro `IO_OUTPUT`. -/
def IO_OUTPUT : Nat := 1

/-- The macro `IO_FREQ`. -/
def IO_FREQ : Nat := 2

/-- The macro `IO_NHARMONICS`. -/
def IO_NHARMONICS : Nat := 3

/-- The struct `FilterStage`.  The arrays `prevIn[2]` and `prevOut[2]` are
pairs: the first component is index 0, the second is index 1. -/
structure FilterStage (α : Type) where
  prevIn : α × α
  prevOut : α × α
  a0 : α
  a1 : α
  a2 : α
  b1 : α
  b2 : α

/-- Host memory: `mem p i` is the sample `p[i]` of the array that the pointer
`p` points to. -/
abbrev Mem (α : Type) := Nat → Nat → α

/-- The assignment `p[i] = v`. -/
def Mem.write {α : Type} (mem : Mem α) (p i : Nat) (v : α) : Mem α :=
  fun q j => if q = p ∧ j = i then v else mem q j

/-- The struct `Filter`. -/
structure Filter (α : Type) where
  inputBuffer : Nat
  outputBuffer : Nat
  freq : α
  sampleRate : α
  nstages : Int
  stages : Nat → FilterStage α

/-- A counting loop `for (i = 0; i < n; i++) s = body i s`. -/
def forLoop {σ : Type} (body : Nat → σ → σ) : Nat → σ → σ
  | 0, s => s
  | n + 1, s => body n (forLoop body n s)

section Code

variable {α : Type} [LinearOrderedField α]

/-- The stage that one iteration of the loop of `updateParameters` leaves at
index `i` (lines 62-78): every field of the stage is assigned. -/
def updateStage (cos : α → α) (M_PI : α) (freq sampleRate : α) (i : Nat) : FilterStage α :=
  let f : α := ((i + 1 : Nat) : α) * freq / sampleRate
  let bw : α := 0.0003
  let R : α := 1.0 - 3 * bw
  let K : α := (1.0 - 2 * R * cos (2 * M_PI * f) + R * R) / (2.0 - 2 * cos (2 * M_PI * f))
  { prevIn := (0.0, 0.0)
    prevOut := (0.0, 0.0)
    a0 := K
    a1 := -2.0 * K * cos (2 * M_PI * f)
    a2 := K
    b1 := 2 * R * cos (2 * M_PI * f)
    b2 := -R * R }

/-- The function `updateParameters`: the loop over `i < nstages`. -/
def updateParameters (cos : α → α) (M_PI : α) (filt : Filter α) : Filter α :=
  forLoop
    (fun i (filt : Filter α) =>
      { filt with
        stages := Function.update filt.stages i
          (updateStage cos M_PI filt.freq filt.sampleRate i) })
    filt.nstages.toNat filt

/-- The function `instantiateFilter`.  `raw` is the block that `malloc`
returned, whose content is arbitrary. -/
def instantiateFilter (cos : α → α) (M_PI : α) (raw : Filter α) (SampleRate : Nat) : Filter α :=
  updateParameters cos M_PI
    { raw with freq := 1000, sampleRate := (SampleRate : α), nstages := 12 }

/-- The cast `(int)x` of a `float`: truncation towards zero. -/
def truncToInt [FloorRing α] (x : α) : Int :=
  if 0 ≤ x then Int.floor x else Int.ceil x

/-- The function `connectPortToFilter`; `*DataLocation` is
`mem DataLocation 0`. -/
def connectPortToFilter [FloorRing α] (cos : α → α) (M_PI : α) (filt : Filter α) (mem : Mem α)
    (Port : Nat) (DataLocation : Nat) : Filter α :=
  if Port = IO_INPUT then
    { filt with inputBuffer := DataLocation }
  else if Port = IO_OUTPUT then
    { filt with outputBuffer := DataLocation }
  else if Port = IO_FREQ then
    updateParameters cos M_PI { filt with freq := mem DataLocation 0 }
  else if Port = IO_NHARMONICS then
    let n0 : Int := truncToInt (mem DataLocation 0)
    let n1 : Int := if n0 < 1 then 1 else n0
    let n2 : Int := if n1 > (MAX_STAGES : Int) then (MAX_STAGES : Int) else n1
    updateParameters cos M_PI { filt with nstages := n2 }
  else
    filt

/-- One iteration of the pass-through loop of `runFilter` (line 136). -/
def copyStep (input output : Nat) (sampleIdx : Nat) (mem : Mem α) : Mem α :=
  mem.write output sampleIdx (mem input sampleIdx)

/-- One iteration of the sample loop of `runFilter` (lines 145-153), on the
stage that `stage` points to and the host memory. -/
def sampleStep (input output : Nat) (sampleIdx : Nat) (s : FilterStage α × Mem α) :
    FilterStage α × Mem α :=
  let stage := s.1
  let v := s.2 input sampleIdx
  let mem := s.2.write output sampleIdx
    (stage.a0 * v + stage.a1 * stage.prevIn.2 + stage.a2 * stage.prevIn.1 +
      stage.b1 * stage.prevOut.2 + stage.b2 * stage.prevOut.1)
  ({ stage with
      prevIn := (stage.prevIn.2, v)
      prevOut := (stage.prevOut.2, mem output sampleIdx) },
    mem)

/-- The stage loop of `runFilter` from `stageIdx` on, with `k` iterations
left (`k = nstages - stageIdx`); `input` is the current value of the local
pointer `input`. -/
def runStages (SampleCount output : Nat) :
    Nat → Nat → Nat → Filter α → Mem α → Filter α × Mem α
  | 0, _, _, filt, mem => (filt, mem)
  | k + 1, stageIdx, input, filt, mem =>
    if filt.freq * ((stageIdx + 1 : Nat) : α) > filt.sampleRate / 2 then
      if stageIdx = 0 then
        (filt, forLoop (copyStep input output) SampleCount mem)
      else
        (filt, mem)
    else
      let r := forLoop (sampleStep input output) SampleCount (filt.stages stageIdx, mem)
      runStages SampleCount output k (stageIdx + 1) output
        { filt with stages := Function.update filt.stages stageIdx r.1 } r.2

/-- The function `runFilter`: the resulting instance and host memory. -/
def runFilter (filt : Filter α) (mem : Mem α) (SampleCount : Nat) : Filter α × Mem α :=
  runStages SampleCount filt.outputBuffer filt.nstages.toNat 0 filt.inputBuffer filt mem

end Code

/-! ## Sequences: what a block holds and what a cascade computes from it -/

section Sequences

variable {α : Type} [LinearOrderedField α]

/-- The block `p[0], ..., p[n-1]` held in host memory. -/
def readBuf (mem : Mem α) (p n : Nat) : List α :=
  (List.range n).map (mem p)

/-- The condition of the Nyquist guard of `runFilter` (line 131) for the stage
with index `stageIdx`. -/
def aboveNyquist (filt : Filter α) (stageIdx : Nat) : Prop :=
  filt.freq * ((stageIdx + 1 : Nat) : α) > filt.sampleRate / 2

/-- Specification of one stage on a whole sequence, starting from the history
the stage holds: each output sample is
`a0 * v + a1 * prevIn[1] + a2 * prevIn[0] + b1 * prevOut[1] + b2 * prevOut[0]`,
after which the history shifts by one sample. -/
def stageSeq (stage : FilterStage α) : List α → List α
  | [] => []
  | v :: vs =>
    let out := stage.a0 * v + stage.a1 * stage.prevIn.2 + stage.a2 * stage.prevIn.1 +
      stage.b1 * stage.prevOut.2 + stage.b2 * stage.prevOut.1
    out :: stageSeq
      { stage with prevIn := (stage.prevIn.2, v), prevOut := (stage.prevOut.2, out) } vs

/-- The stage after a whole sequence went through it. -/
def stageEnd (stage : FilterStage α) : List α → FilterStage α
  | [] => stage
  | v :: vs =>
    let out := stage.a0 * v + stage.a1 * stage.prevIn.2 + stage.a2 * stage.prevIn.1 +
      stage.b1 * stage.prevOut.2 + stage.b2 * stage.prevOut.1
    stageEnd
      { stage with prevIn := (stage.prevIn.2, v), prevOut := (stage.prevOut.2, out) } vs

/-- Specification of stages run in sequence: the first on the input, each later
stage on the whole output of the stage before it. -/
def cascadeSeq (stages : List (FilterStage α)) (xs : List α) : List α :=
  stages.foldl (fun ys stage => stageSeq stage ys) xs

/-- Specification of the stages after a whole sequence went through them in
sequence: each stage ends as `stageEnd` says on the sequence that reaches it. -/
def cascadeEnd : List (FilterStage α) → List α → List (FilterStage α)
  | [], _ => []
  | stage :: stages, xs => stageEnd stage xs :: cascadeEnd stages (stageSeq stage xs)

/-- The number of stages that the stage loop of `runFilter` executes from
`stageIdx` on with `k` iterations left: it stops at the first stage above
Nyquist. -/
def runCount (filt : Filter α) : Nat → Nat → Nat
  | 0, _ => 0
  | k + 1, stageIdx =>
    if filt.freq * ((stageIdx + 1 : Nat) : α) > filt.sampleRate / 2 then 0
    else runCount filt k (stageIdx + 1) + 1

/-- The stages that `runFilter` executes on the instance, in order. -/
def executedStages (filt : Filter α) : List (FilterStage α) :=
  (List.range (runCount filt filt.nstages.toNat 0)).map filt.stages

/-- The instances a host can hold: the result of `instantiateFilter`, and from
there the result of any call of `connectPortToFilter` or `runFilter`. -/
inductive Reachable [FloorRing α] (cos : α → α) (M_PI : α) : Filter α → Prop
  | instantiate (raw : Filter α) (SampleRate : Nat) :
      Reachable cos M_PI (instantiateFilter cos M_PI raw SampleRate)
  | connect (filt : Filter α) (mem : Mem α) (Port DataLocation : Nat) :
      Reachable cos M_PI filt →
      Reachable cos M_PI (connectPortToFilter cos M_PI filt mem Port DataLocation)
  | run (filt : Filter α) (mem : Mem α) (SampleCount : Nat) :
      Reachable cos M_PI filt →
      Reachable cos M_PI (runFilter filt mem SampleCount).1

end Sequences

/-! ## Concrete instances used in the evaluations below -/

section Inputs

/-- Stage 0 as `updateParameters` configures it for `freq = 1000` at
`sampleRate = 4000` (where `cos (2 * M_PI * f) = 0`), after one sample of
value 1 went through it. -/
def c1Stage : FilterStage ℚ :=
  { prevIn := (0, 1)
    prevOut := (0, 199820081 / 200000000)
    a0 := 199820081 / 200000000
    a1 := 0
    a2 := 199820081 / 200000000
    b1 := 0
    b2 := -(99820081 / 100000000) }

/-- An instance with one active stage, input array 0 and output array 1. -/
def c1Filter : Filter ℚ :=
  { inputBuffer := 0
    outputBuffer := 1
    freq := 1000
    sampleRate := 4000
    nstages := 1
    stages := fun _ => c1Stage }

/-- Host memory holding zeros. -/
def c1Mem : Mem ℚ := fun _ _ => 0

/-- A stage with a non-zero history and arbitrary coefficients. -/
def usedStage (α : Type) [LinearOrderedField α] : FilterStage α :=
  { prevIn := (3, 4), prevOut := (5, 6), a0 := 1, a1 := 2, a2 := 3, b1 := 4, b2 := 5 }

/-- An instance with `freq = 1000`, `sampleRate = 4000` and three active
stages, all of which have been used. -/
def usedFilter (α : Type) [LinearOrderedField α] : Filter α :=
  { inputBuffer := 0
    outputBuffer := 1
    freq := 1000
    sampleRate := 4000
    nstages := 3
    stages := fun _ => usedStage α }

/-- An instance whose first harmonic, 30000 Hz, is above Nyquist at 44100 Hz. -/
def aboveFilter : Filter ℚ :=
  { inputBuffer := 0
    outputBuffer := 1
    freq := 30000
    sampleRate := 44100
    nstages := 23
    stages := fun _ => usedStage ℚ }

/-- Host memory whose array 0 holds 1, 2, 3, ... and whose other arrays hold
zeros. -/
def rampMem : Mem ℚ := fun p i => if p = 0 then (i : ℚ) + 1 else 0

/-- The instance a host gets by creating the plugin at 44100 Hz and connecting
the frequency port to array 2, the harmonic-count port to array 3, the input
port to array 0 and the output port to array 1. -/
def configured {α : Type} [LinearOrderedField α] [FloorRing α] (cos : α → α) (M_PI : α)
    (raw : Filter α) (mem : Mem α) : Filter α :=
  connectPortToFilter cos M_PI
    (connectPortToFilter cos M_PI
      (connectPortToFilter cos M_PI
        (connectPortToFilter cos M_PI (instantiateFilter cos M_PI raw 44100) mem IO_FREQ 2)
        mem IO_NHARMONICS 3)
      mem IO_INPUT 0)
    mem IO_OUTPUT 1

/-- Host memory for the rejection scenario: array 0 holds the unit-amplitude
sine of 1000 Hz sampled at 44100 Hz, array 2 the frequency 1000, array 3 the
harmonic count 1. -/
def sineMem {α : Type} [LinearOrderedField α] (sin : α → α) (M_PI : α) : Mem α :=
  fun p i =>
    if p = 0 then sin (2 * M_PI * (1 * 1000 / 44100) * (i : α))
    else if p = 2 then 1000
    else if p = 3 then 1
    else 0

/-- An instance whose three active harmonics of 1000 Hz are all below Nyquist at
44100 Hz; every stage carries a history. -/
def cascadeFilter : Filter ℚ :=
  { inputBuffer := 0
    outputBuffer := 1
    freq := 1000
    sampleRate := 44100
    nstages := 3
    stages := fun _ => usedStage ℚ }

/-- Host memory whose array 0 holds 3, 4, 5, ... and whose other arrays hold
zeros: the continuation of the block 1, 2 of `rampMem`. -/
def rampMemFrom3 : Mem ℚ := fun p i => if p = 0 then (i : ℚ) + 3 else 0

end Inputs

/-! ## Theorems -/

section Memory

variable {α : Type}

@[simp]
theorem Mem.write_same (mem : Mem α) (p i : Nat) (v : α) : mem.write p i v p i = v := by
  simp [Mem.write]

theorem Mem.write_other (mem : Mem α) (p i q j : Nat) (v : α) (h : ¬ (q = p ∧ j = i)) :
    mem.write p i v q j = mem q j := by
  simp [Mem.write, h]

end Memory

section Parameters

variable {α : Type} [LinearOrderedField α]

/-- The loop of `updateParameters` after `n` iterations: the first `n` stages are
the freshly derived ones, the others are as before. -/
theorem forLoop_updateStage (cos : α → α) (M_PI : α) (n : Nat) (filt : Filter α) :
    forLoop
        (fun i (filt : Filter α) =>
          { filt with
            stages := Function.update filt.stages i
              (updateStage cos M_PI filt.freq filt.sampleRate i) })
        n filt =
      { filt with
        stages := fun i =>
          if i < n then updateStage cos M_PI filt.freq filt.sampleRate i else filt.stages i } := by
  induction n with
  | zero => simp [forLoop]
  | succ n ih =>
    rw [forLoop, ih]
    simp only
    congr 1
    funext j
    by_cases hj : j = n
    · subst hj
      simp
    · rw [Function.update_noteq hj]
      by_cases hlt : j < n
      · have : j < n + 1 := by omega
        simp [hlt, this]
      · have : ¬ j < n + 1 := by omega
        simp [hlt, this]

theorem updateParameters_eq (cos : α → α) (M_PI : α) (filt : Filter α) :
    updateParameters cos M_PI filt =
      { filt with
        stages := fun i =>
          if i < filt.nstages.toNat then updateStage cos M_PI filt.freq filt.sampleRate i
          else filt.stages i } :=
  forLoop_updateStage cos M_PI filt.nstages.toNat filt

theorem updateParameters_nstages (cos : α → α) (M_PI : α) (filt : Filter α) :
    (updateParameters cos M_PI filt).nstages = filt.nstages := by
  rw [updateParameters_eq]

theorem updateParameters_freq (cos : α → α) (M_PI : α) (filt : Filter α) :
    (updateParameters cos M_PI filt).freq = filt.freq := by
  rw [updateParameters_eq]

theorem updateParameters_sampleRate (cos : α → α) (M_PI : α) (filt : Filter α) :
    (updateParameters cos M_PI filt).sampleRate = filt.sampleRate := by
  rw [updateParameters_eq]

theorem updateParameters_inputBuffer (cos : α → α) (M_PI : α) (filt : Filter α) :
    (updateParameters cos M_PI filt).inputBuffer = filt.inputBuffer := by
  rw [updateParameters_eq]

theorem updateParameters_outputBuffer (cos : α → α) (M_PI : α) (filt : Filter α) :
    (updateParameters cos M_PI filt).outputBuffer = filt.outputBuffer := by
  rw [updateParameters_eq]

theorem updateParameters_active (cos : α → α) (M_PI : α) (filt : Filter α) (i : Nat)
    (hi : (i : Int) < filt.nstages) :
    (updateParameters cos M_PI filt).stages i =
      updateStage cos M_PI filt.freq filt.sampleRate i := by
  have h : i < filt.nstages.toNat := by omega
  rw [updateParameters_eq]
  simp [h]

theorem updateParameters_inactive (cos : α → α) (M_PI : α) (filt : Filter α) (i : Nat)
    (hi : filt.nstages ≤ (i : Int)) :
    (updateParameters cos M_PI filt).stages i = filt.stages i := by
  have h : ¬ i < filt.nstages.toNat := by omega
  rw [updateParameters_eq]
  simp [h]

theorem updateStage_prevIn (cos : α → α) (M_PI : α) (freq sampleRate : α) (i : Nat) :
    (updateStage cos M_PI freq sampleRate i).prevIn = (0, 0) := by
  simp only [updateStage]
  norm_num

theorem updateStage_prevOut (cos : α → α) (M_PI : α) (freq sampleRate : α) (i : Nat) :
    (updateStage cos M_PI freq sampleRate i).prevOut = (0, 0) := by
  simp only [updateStage]
  norm_num

end Parameters

/-! ### C1: the per-sample recurrence -/

section C1

variable {α : Type} [LinearOrderedField α]

/-- C1 (amended): in the sample loop of `runFilter`, with `before` the stage and
memory reached after `t` samples and `after` those reached after `t + 1`, the
sample written to `output[t]` is
`a0 * input[t] + a1 * prevIn[1] + a2 * prevIn[0] + b1 * prevOut[1] + b2 * prevOut[0]`
over the history in `before`: `a1` multiplies the newer input (index 1) and `a2`
the older one (index 0).  The history then shifts to
`prevIn = (prevIn[1], input[t])` and `prevOut = (prevOut[1], output[t])`. -/
theorem sampleStep_recurrence (input output t : Nat) (stage0 : FilterStage α) (mem0 : Mem α) :
    let before := forLoop (sampleStep input output) t (stage0, mem0)
    let after := forLoop (sampleStep input output) (t + 1) (stage0, mem0)
    after.2 output t =
        before.1.a0 * before.2 input t + before.1.a1 * before.1.prevIn.2 +
          before.1.a2 * before.1.prevIn.1 + before.1.b1 * before.1.prevOut.2 +
          before.1.b2 * before.1.prevOut.1 ∧
      after.1.prevIn = (before.1.prevIn.2, before.2 input t) ∧
      after.1.prevOut = (before.1.prevOut.2, after.2 output t) := by
  simp [forLoop, sampleStep]

/-- C1 as stated fails: on `c1Filter`, whose stage 0 has `prevIn = (0, 1)`,
`a1 = 0` and `a2 ≠ 0`, a block of one sample of value 0 makes `runFilter` write
`output[0] = 0`, while the formula with `a1 * prevIn[0] + a2 * prevIn[1]` gives
`199820081 / 200000000`. -/
theorem c1_swapped_taps_refuted :
    (runFilter c1Filter c1Mem 1).2 c1Filter.outputBuffer 0 ≠
      c1Stage.a0 * c1Mem c1Filter.inputBuffer 0 + c1Stage.a1 * c1Stage.prevIn.1 +
        c1Stage.a2 * c1Stage.prevIn.2 + c1Stage.b1 * c1Stage.prevOut.2 +
        c1Stage.b2 * c1Stage.prevOut.1 := by
  have h : (runFilter c1Filter c1Mem 1).2 c1Filter.outputBuffer 0 = 0 := by
    simp [runFilter, runStages, forLoop, sampleStep, c1Filter, c1Stage, c1Mem]
    norm_num
  rw [h]
  norm_num [c1Filter, c1Stage, c1Mem]

end C1

/-! ### C7, C9: `updateParameters` is idempotent and touches only active stages -/

section C7C9

variable {α : Type} [LinearOrderedField α]

/-- C7: applying `updateParameters` twice in a row gives exactly the state that
applying it once gives, and in that state every active stage `i < nstages` has
the derived coefficients and an all-zero `prevIn` and `prevOut`. -/
theorem updateParameters_idempotent (cos : α → α) (M_PI : α) (filt : Filter α) :
    updateParameters cos M_PI (updateParameters cos M_PI filt) = updateParameters cos M_PI filt ∧
      ∀ i : Nat, (i : Int) < filt.nstages →
        (updateParameters cos M_PI filt).stages i =
            updateStage cos M_PI filt.freq filt.sampleRate i ∧
          (updateParameters cos M_PI (updateParameters cos M_PI filt)).stages i =
            updateStage cos M_PI filt.freq filt.sampleRate i ∧
          (updateStage cos M_PI filt.freq filt.sampleRate i).prevIn = (0, 0) ∧
          (updateStage cos M_PI filt.freq filt.sampleRate i).prevOut = (0, 0) := by
  have h : updateParameters cos M_PI (updateParameters cos M_PI filt) =
      updateParameters cos M_PI filt := by
    rw [updateParameters_eq cos M_PI (updateParameters cos M_PI filt), updateParameters_eq]
    simp only
    congr 1
    funext j
    by_cases hj : j < filt.nstages.toNat <;> simp [hj]
  refine ⟨h, fun i hi => ?_⟩
  rw [h, updateParameters_active cos M_PI filt i hi]
  exact ⟨rfl, rfl, updateStage_prevIn .., updateStage_prevOut ..⟩

/-- C7 at `usedFilter ℝ` and its stage 2. -/
theorem updateParameters_idempotent_witness :
    ((2 : Nat) : Int) < (usedFilter ℝ).nstages ∧
      updateParameters Real.cos Real.pi (updateParameters Real.cos Real.pi (usedFilter ℝ)) =
        updateParameters Real.cos Real.pi (usedFilter ℝ) ∧
      ((updateParameters Real.cos Real.pi
          (updateParameters Real.cos Real.pi (usedFilter ℝ))).stages 2).prevIn = (0, 0) := by
  have h := updateParameters_idempotent Real.cos Real.pi (usedFilter ℝ)
  have h2 := h.2 2 (by simp [usedFilter])
  refine ⟨by simp [usedFilter], h.1, ?_⟩
  rw [h2.2.1]
  exact h2.2.2.1

/-- C9: `updateParameters` leaves every stage with index `>= nstages` as it was,
and leaves `freq`, `sampleRate`, `nstages` and the two buffer pointers as they
were. -/
theorem updateParameters_frame (cos : α → α) (M_PI : α) (filt : Filter α) :
    (∀ i : Nat, filt.nstages ≤ (i : Int) →
        (updateParameters cos M_PI filt).stages i = filt.stages i) ∧
      (updateParameters cos M_PI filt).freq = filt.freq ∧
      (updateParameters cos M_PI filt).sampleRate = filt.sampleRate ∧
      (updateParameters cos M_PI filt).nstages = filt.nstages ∧
      (updateParameters cos M_PI filt).inputBuffer = filt.inputBuffer ∧
      (updateParameters cos M_PI filt).outputBuffer = filt.outputBuffer :=
  ⟨fun i hi => updateParameters_inactive cos M_PI filt i hi, updateParameters_freq ..,
    updateParameters_sampleRate .., updateParameters_nstages ..,
    updateParameters_inputBuffer .., updateParameters_outputBuffer ..⟩

/-- C9 at `usedFilter ℝ` and its stage 3, the first inactive one. -/
theorem updateParameters_frame_witness :
    (usedFilter ℝ).nstages ≤ ((3 : Nat) : Int) ∧
      (updateParameters Real.cos Real.pi (usedFilter ℝ)).stages 3 = usedStage ℝ :=
  ⟨by simp [usedFilter],
    (updateParameters_frame Real.cos Real.pi (usedFilter ℝ)).1 3 (by simp [usedFilter])⟩

end C7C9

/-! ### C4: the harmonic-count port -/

section C4

variable {α : Type} [LinearOrderedField α] [FloorRing α]

theorem truncToInt_of_nonneg (x : α) (h : 0 ≤ x) : truncToInt x = ⌊x⌋ := by
  simp [truncToInt, h]

/-- The frequency port stores the value and recomputes. -/
theorem connectPort_freq_eq (cos : α → α) (M_PI : α) (filt : Filter α) (mem : Mem α)
    (DataLocation : Nat) :
    connectPortToFilter cos M_PI filt mem IO_FREQ DataLocation =
      updateParameters cos M_PI { filt with freq := mem DataLocation 0 } := by
  simp [connectPortToFilter, IO_INPUT, IO_OUTPUT, IO_FREQ]

/-- The harmonic-count port stores the truncated, clamped value and recomputes. -/
theorem connectPort_nharmonics_eq (cos : α → α) (M_PI : α) (filt : Filter α) (mem : Mem α)
    (DataLocation : Nat) :
    connectPortToFilter cos M_PI filt mem IO_NHARMONICS DataLocation =
      updateParameters cos M_PI
        { filt with
          nstages :=
            if (if truncToInt (mem DataLocation 0) < 1 then 1 else truncToInt (mem DataLocation 0)) >
                (MAX_STAGES : Int) then
              (MAX_STAGES : Int)
            else
              (if truncToInt (mem DataLocation 0) < 1 then 1
                else truncToInt (mem DataLocation 0)) } := by
  simp [connectPortToFilter, IO_NHARMONICS, IO_INPUT, IO_OUTPUT, IO_FREQ]

/-- C4: for every value `v >= 0` (so for every `v` in `[0, 30]`) read from the
location connected to port 3, the `nstages` that `connectPortToFilter` stores is
`v` truncated to an integer and clamped to `[1, MAX_STAGES]`; it is not 0 and
lies between 1 and 23. -/
theorem connectPort_nharmonics_clamped (cos : α → α) (M_PI : α) (filt : Filter α)
    (mem : Mem α) (DataLocation : Nat) (h0 : 0 ≤ mem DataLocation 0) :
    (connectPortToFilter cos M_PI filt mem IO_NHARMONICS DataLocation).nstages =
        max 1 (min (MAX_STAGES : Int) ⌊mem DataLocation 0⌋) ∧
      (connectPortToFilter cos M_PI filt mem IO_NHARMONICS DataLocation).nstages ≠ 0 ∧
      1 ≤ (connectPortToFilter cos M_PI filt mem IO_NHARMONICS DataLocation).nstages ∧
      (connectPortToFilter cos M_PI filt mem IO_NHARMONICS DataLocation).nstages ≤ 23 := by
  rw [connectPort_nharmonics_eq, updateParameters_nstages, truncToInt_of_nonneg _ h0]
  have hM : ((MAX_STAGES : Nat) : Int) = 23 := rfl
  simp only [hM]
  split_ifs <;> omega

/-- C4 at the value 29.5, which is stored as 23. -/
theorem connectPort_nharmonics_clamped_witness :
    (0 : ℚ) ≤ (fun _ _ => 59 / 2 : Mem ℚ) 7 0 ∧
      (connectPortToFilter (fun _ => 0) 3 (usedFilter ℚ) (fun _ _ => 59 / 2) IO_NHARMONICS 7).nstages
        = max 1 (min (MAX_STAGES : Int) ⌊(fun _ _ => 59 / 2 : Mem ℚ) 7 0⌋) :=
  ⟨by norm_num,
    (connectPort_nharmonics_clamped (fun _ => 0) 3 (usedFilter ℚ) (fun _ _ => 59 / 2) 7
      (by norm_num)).1⟩

end C4

/-! ### C5: the derived coefficients -/

section C5

/-- The five coefficients that `updateStage` stores, in closed form. -/
theorem updateStage_coefficients {α : Type} [LinearOrderedField α] (cos : α → α) (M_PI : α)
    (freq sampleRate : α) (i : Nat) :
    let c := cos (2 * M_PI * (((i : α) + 1) * freq / sampleRate))
    let R : α := 1 - 0.0009
    let K : α := (1 - 2 * R * c + R ^ 2) / (2 - 2 * c)
    (updateStage cos M_PI freq sampleRate i).a0 = K ∧
      (updateStage cos M_PI freq sampleRate i).a1 = -2 * K * c ∧
      (updateStage cos M_PI freq sampleRate i).a2 = K ∧
      (updateStage cos M_PI freq sampleRate i).b1 = 2 * R * c ∧
      (updateStage cos M_PI freq sampleRate i).b2 = -R ^ 2 := by
  have hR : (1.0 : α) - 3 * 0.0003 = 1 - 0.0009 := by norm_num
  have h1 : (1.0 : α) = 1 := by norm_num
  have h2 : (2.0 : α) = 2 := by norm_num
  simp only [updateStage, Nat.cast_add, Nat.cast_one, hR, h1, h2]
  refine ⟨?_, ?_, ?_, ?_, ?_⟩ <;> ring

/-- For a normalised frequency `f` in `(0, 1/2]` the cosine of `2 * pi * f` is
below 1. -/
theorem cos_two_pi_mul_lt_one (f : ℝ) (h0 : 0 < f) (h1 : f ≤ 1 / 2) :
    Real.cos (2 * Real.pi * f) < 1 := by
  have hpi := Real.pi_pos
  have hx : 0 < 2 * Real.pi * f := by positivity
  have hy : 2 * Real.pi * f ≤ Real.pi := by nlinarith
  have := Real.cos_lt_cos_of_nonneg_of_le_pi (le_refl 0) hy hx
  simpa using this

/-- C5: over the reals, for an active stage `i < nstages` whose normalised
frequency `f = (i + 1) * freq / sampleRate` lies strictly in `(0, 0.5)`, the
coefficients that `updateParameters` stores are `a0 = a2 = K`,
`a1 = -2 * K * cos (2 * pi * f)`, `b1 = 2 * R * cos (2 * pi * f)` and `b2 = -R^2`
with `R = 1 - 0.0009` and
`K = (1 - 2 * R * cos (2 * pi * f) + R^2) / (2 - 2 * cos (2 * pi * f))`, and the
divisor of `K` is not zero. -/
theorem updateParameters_coefficients (filt : Filter ℝ) (i : Nat)
    (hi : (i : Int) < filt.nstages)
    (hf0 : 0 < ((i : ℝ) + 1) * filt.freq / filt.sampleRate)
    (hf1 : ((i : ℝ) + 1) * filt.freq / filt.sampleRate < 0.5) :
    let f : ℝ := ((i : ℝ) + 1) * filt.freq / filt.sampleRate
    let c : ℝ := Real.cos (2 * Real.pi * f)
    let R : ℝ := 1 - 0.0009
    let K : ℝ := (1 - 2 * R * c + R ^ 2) / (2 - 2 * c)
    let s := (updateParameters Real.cos Real.pi filt).stages i
    s.a0 = K ∧ s.a2 = K ∧ s.a1 = -2 * K * c ∧ s.b1 = 2 * R * c ∧ s.b2 = -R ^ 2 ∧
      2 - 2 * c ≠ 0 := by
  intro f c R K s
  have hs : s = updateStage Real.cos Real.pi filt.freq filt.sampleRate i :=
    updateParameters_active Real.cos Real.pi filt i hi
  have hc := updateStage_coefficients Real.cos Real.pi filt.freq filt.sampleRate i
  simp only at hc
  have hlt : c < 1 := cos_two_pi_mul_lt_one f hf0 (by norm_num at hf1; linarith)
  rw [hs]
  exact ⟨hc.1, hc.2.2.1, hc.2.1, hc.2.2.2.1, hc.2.2.2.2, by linarith⟩

/-- C5 at stage 0 of `usedFilter ℝ`, where `f = 1/4`. -/
theorem updateParameters_coefficients_witness :
    ((0 : Nat) : Int) < (usedFilter ℝ).nstages ∧
      0 < (((0 : Nat) : ℝ) + 1) * (usedFilter ℝ).freq / (usedFilter ℝ).sampleRate ∧
      (((0 : Nat) : ℝ) + 1) * (usedFilter ℝ).freq / (usedFilter ℝ).sampleRate < 0.5 ∧
      ((updateParameters Real.cos Real.pi (usedFilter ℝ)).stages 0).b2 = -(1 - 0.0009) ^ 2 :=
  ⟨by simp [usedFilter], by norm_num [usedFilter], by norm_num [usedFilter],
    (updateParameters_coefficients (usedFilter ℝ) 0 (by simp [usedFilter])
      (by norm_num [usedFilter]) (by norm_num [usedFilter])).2.2.2.2.1⟩

end C5

/-! ### C8, C10: every recomputation resets the active stages -/

section C8C10

variable {α : Type} [LinearOrderedField α]

/-- C8: after `instantiateFilter`, after `connectPortToFilter` on the frequency
port and after `connectPortToFilter` on the harmonic-count port, every stage
`i` below the new `nstages` has `prevIn = (0, 0)` and `prevOut = (0, 0)`,
whatever the instance held before. -/
theorem recompute_resets_history [FloorRing α] (cos : α → α) (M_PI : α) :
    (∀ (raw : Filter α) (SampleRate i : Nat),
        (i : Int) < (instantiateFilter cos M_PI raw SampleRate).nstages →
        ((instantiateFilter cos M_PI raw SampleRate).stages i).prevIn = (0, 0) ∧
          ((instantiateFilter cos M_PI raw SampleRate).stages i).prevOut = (0, 0)) ∧
      (∀ (filt : Filter α) (mem : Mem α) (DataLocation i : Nat),
        (i : Int) < (connectPortToFilter cos M_PI filt mem IO_FREQ DataLocation).nstages →
        ((connectPortToFilter cos M_PI filt mem IO_FREQ DataLocation).stages i).prevIn = (0, 0) ∧
          ((connectPortToFilter cos M_PI filt mem IO_FREQ DataLocation).stages i).prevOut =
            (0, 0)) ∧
      (∀ (filt : Filter α) (mem : Mem α) (DataLocation i : Nat),
        (i : Int) < (connectPortToFilter cos M_PI filt mem IO_NHARMONICS DataLocation).nstages →
        ((connectPortToFilter cos M_PI filt mem IO_NHARMONICS DataLocation).stages i).prevIn =
            (0, 0) ∧
          ((connectPortToFilter cos M_PI filt mem IO_NHARMONICS DataLocation).stages i).prevOut =
            (0, 0)) := by
  have key : ∀ (g : Filter α) (i : Nat), (i : Int) < (updateParameters cos M_PI g).nstages →
      ((updateParameters cos M_PI g).stages i).prevIn = (0, 0) ∧
        ((updateParameters cos M_PI g).stages i).prevOut = (0, 0) := by
    intro g i hi
    rw [updateParameters_nstages] at hi
    rw [updateParameters_active cos M_PI g i hi]
    exact ⟨updateStage_prevIn .., updateStage_prevOut ..⟩
  refine ⟨fun raw sr i hi => key _ i hi, fun filt mem loc i => ?_, fun filt mem loc i => ?_⟩
  · rw [connectPort_freq_eq]
    exact key _ i
  · rw [connectPort_nharmonics_eq]
    exact key _ i

/-- C10: `instantiateFilter` returns an instance with `freq = 1000`,
`nstages = 12` and `sampleRate = SampleRate`, whose stages 0..11 hold the
coefficients derived for the harmonics 1..12 of 1000 Hz at that sample rate and
a zero history. -/
theorem instantiateFilter_defaults (cos : α → α) (M_PI : α) (raw : Filter α)
    (SampleRate : Nat) :
    (instantiateFilter cos M_PI raw SampleRate).freq = 1000 ∧
      (instantiateFilter cos M_PI raw SampleRate).nstages = 12 ∧
      (instantiateFilter cos M_PI raw SampleRate).sampleRate = (SampleRate : α) ∧
      ∀ i : Nat, i < 12 →
        let c := cos (2 * M_PI * (((i : α) + 1) * 1000 / (SampleRate : α)))
        let R : α := 1 - 0.0009
        let K : α := (1 - 2 * R * c + R ^ 2) / (2 - 2 * c)
        let s := (instantiateFilter cos M_PI raw SampleRate).stages i
        s.a0 = K ∧ s.a1 = -2 * K * c ∧ s.a2 = K ∧ s.b1 = 2 * R * c ∧ s.b2 = -R ^ 2 ∧
          s.prevIn = (0, 0) ∧ s.prevOut = (0, 0) := by
  refine ⟨?_, ?_, ?_, fun i hi => ?_⟩
  · simp [instantiateFilter, updateParameters_freq]
  · simp [instantiateFilter, updateParameters_nstages]
  · simp [instantiateFilter, updateParameters_sampleRate]
  · intro c R K s
    have hs : s = updateStage cos M_PI 1000 (SampleRate : α) i := by
      have hlt : (i : Int) < 12 := by omega
      exact updateParameters_active cos M_PI _ i hlt
    have hc := updateStage_coefficients cos M_PI 1000 (SampleRate : α) i
    simp only at hc
    rw [hs]
    exact ⟨hc.1, hc.2.1, hc.2.2.1, hc.2.2.2.1, hc.2.2.2.2, updateStage_prevIn ..,
      updateStage_prevOut ..⟩

end C8C10

/-- C8 at `usedFilter ℝ`, whose stages all carry a history: stage 11 after
`instantiateFilter`, stage 2 after a new frequency and stage 4 after the harmonic
count 5. -/
theorem recompute_resets_history_witness :
    ((11 : Nat) : Int) < (instantiateFilter Real.cos Real.pi (usedFilter ℝ) 44100).nstages ∧
      ((instantiateFilter Real.cos Real.pi (usedFilter ℝ) 44100).stages 11).prevIn = (0, 0) ∧
      ((2 : Nat) : Int) <
        (connectPortToFilter Real.cos Real.pi (usedFilter ℝ) (fun _ _ => 50) IO_FREQ 7).nstages ∧
      ((connectPortToFilter Real.cos Real.pi (usedFilter ℝ) (fun _ _ => 50) IO_FREQ 7).stages
        2).prevOut = (0, 0) ∧
      ((4 : Nat) : Int) <
        (connectPortToFilter Real.cos Real.pi (usedFilter ℝ) (fun _ _ => 5)
          IO_NHARMONICS 7).nstages ∧
      ((connectPortToFilter Real.cos Real.pi (usedFilter ℝ) (fun _ _ => 5)
        IO_NHARMONICS 7).stages 4).prevIn = (0, 0) := by
  have h := recompute_resets_history Real.cos Real.pi
  have h1 : ((11 : Nat) : Int) <
      (instantiateFilter Real.cos Real.pi (usedFilter ℝ) 44100).nstages := by
    simp [instantiateFilter, updateParameters_nstages]
  have h2 : ((2 : Nat) : Int) <
      (connectPortToFilter Real.cos Real.pi (usedFilter ℝ) (fun _ _ => 50) IO_FREQ 7).nstages := by
    rw [connectPort_freq_eq, updateParameters_nstages]
    simp [usedFilter]
  have h3 : ((4 : Nat) : Int) <
      (connectPortToFilter Real.cos Real.pi (usedFilter ℝ) (fun _ _ => 5)
        IO_NHARMONICS 7).nstages := by
    have hfl : ⌊(5 : ℝ)⌋ = 5 := by simp
    rw [connectPort_nharmonics_eq, updateParameters_nstages,
      truncToInt_of_nonneg _ (by norm_num)]
    simp [MAX_STAGES, hfl]
  exact ⟨h1, (h.1 _ 44100 11 h1).1, h2, (h.2.1 _ _ 7 2 h2).2, h3, (h.2.2 _ _ 7 4 h3).1⟩

/-- C10 at the sample rate 44100 and stage 11. -/
theorem instantiateFilter_defaults_witness :
    (11 : Nat) < 12 ∧
      (instantiateFilter Real.cos Real.pi (usedFilter ℝ) 44100).nstages = 12 ∧
      ((instantiateFilter Real.cos Real.pi (usedFilter ℝ) 44100).stages 11).prevOut = (0, 0) :=
  ⟨by decide, (instantiateFilter_defaults Real.cos Real.pi (usedFilter ℝ) 44100).2.1,
    ((instantiateFilter_defaults Real.cos Real.pi (usedFilter ℝ) 44100).2.2.2 11
      (by decide)).2.2.2.2.2.2⟩

/-! ### C2, C3: the Nyquist guard -/

section Blocks

variable {α : Type}

theorem readBuf_succ (mem : Mem α) (p n : Nat) :
    readBuf mem p (n + 1) = readBuf mem p n ++ [mem p n] := by
  simp [readBuf, List.range_succ]

theorem readBuf_congr (m1 m2 : Mem α) (p q n : Nat) (h : ∀ i, i < n → m1 p i = m2 q i) :
    readBuf m1 p n = readBuf m2 q n := by
  unfold readBuf
  apply List.map_congr_left
  intro i hi
  exact h i (List.mem_range.mp hi)

/-- The pass-through loop copies `input[0..n-1]` to `output[0..n-1]` and touches
nothing else. -/
theorem forLoop_copyStep (input output n : Nat) (mem : Mem α) (b i : Nat) :
    forLoop (copyStep input output) n mem b i =
      if b = output ∧ i < n then mem input i else mem b i := by
  induction n generalizing b i with
  | zero => simp [forLoop]
  | succ n ih =>
    rw [forLoop, copyStep]
    by_cases h : b = output ∧ i = n
    · obtain ⟨hb, hi⟩ := h
      subst hb hi
      rw [Mem.write_same, ih]
      simp
    · rw [Mem.write_other _ _ _ _ _ _ h, ih]
      by_cases hb : b = output
      · have hi : i ≠ n := fun hi => h ⟨hb, hi⟩
        have : (i < n + 1) ↔ (i < n) := by omega
        simp [hb, this]
      · simp [hb]

end Blocks

section Run

variable {α : Type} [LinearOrderedField α]

theorem stageSeq_snoc (stage : FilterStage α) (xs : List α) (v : α) :
    stageSeq stage (xs ++ [v]) =
      stageSeq stage xs ++
        [(stageEnd stage xs).a0 * v + (stageEnd stage xs).a1 * (stageEnd stage xs).prevIn.2 +
          (stageEnd stage xs).a2 * (stageEnd stage xs).prevIn.1 +
          (stageEnd stage xs).b1 * (stageEnd stage xs).prevOut.2 +
          (stageEnd stage xs).b2 * (stageEnd stage xs).prevOut.1] := by
  induction xs generalizing stage with
  | nil => simp [stageSeq, stageEnd]
  | cons x xs ih => simp [stageSeq, stageEnd, ih]

theorem stageEnd_snoc (stage : FilterStage α) (xs : List α) (v : α) :
    stageEnd stage (xs ++ [v]) =
      { stageEnd stage xs with
        prevIn := ((stageEnd stage xs).prevIn.2, v)
        prevOut := ((stageEnd stage xs).prevOut.2,
          (stageEnd stage xs).a0 * v + (stageEnd stage xs).a1 * (stageEnd stage xs).prevIn.2 +
            (stageEnd stage xs).a2 * (stageEnd stage xs).prevIn.1 +
            (stageEnd stage xs).b1 * (stageEnd stage xs).prevOut.2 +
            (stageEnd stage xs).b2 * (stageEnd stage xs).prevOut.1) } := by
  induction xs generalizing stage with
  | nil => simp [stageEnd]
  | cons x xs ih => simp [stageEnd, ih]

/-- The sample loop of one stage: the stage ends as `stageEnd` says, the block
`output[0..n-1]` holds `stageSeq` of the block `input[0..n-1]`, and nothing else
in memory changes.  `input` and `output` may be the same array. -/
theorem forLoop_sampleStep (input output n : Nat) (stage : FilterStage α) (mem : Mem α) :
    (forLoop (sampleStep input output) n (stage, mem)).1 =
        stageEnd stage (readBuf mem input n) ∧
      readBuf (forLoop (sampleStep input output) n (stage, mem)).2 output n =
        stageSeq stage (readBuf mem input n) ∧
      ∀ b i, ¬ (b = output ∧ i < n) →
        (forLoop (sampleStep input output) n (stage, mem)).2 b i = mem b i := by
  induction n with
  | zero => simp [forLoop, readBuf, stageSeq, stageEnd]
  | succ n ih =>
    obtain ⟨ih1, ih2, ih3⟩ := ih
    have hin : (forLoop (sampleStep input output) n (stage, mem)).2 input n = mem input n :=
      ih3 input n (by omega)
    refine ⟨?_, ?_, ?_⟩
    · rw [readBuf_succ, stageEnd_snoc, forLoop]
      simp only [sampleStep, Mem.write_same, hin, ih1]
    · rw [readBuf_succ, readBuf_succ, stageSeq_snoc, forLoop]
      congr 1
      · rw [← ih2]
        apply readBuf_congr
        intro i hi
        simp only [sampleStep]
        exact Mem.write_other _ _ _ _ _ _ (by omega)
      · simp only [sampleStep, Mem.write_same, hin, ih1]
    · intro b i hbi
      rw [forLoop]
      simp only [sampleStep]
      rw [Mem.write_other _ _ _ _ _ _ (by intro h; apply hbi; omega)]
      exact ih3 b i (by intro h; apply hbi; omega)

theorem cascadeSeq_cons (stage : FilterStage α) (stages : List (FilterStage α)) (xs : List α) :
    cascadeSeq (stage :: stages) xs = cascadeSeq stages (stageSeq stage xs) := by
  simp [cascadeSeq]

/-- C2: when the first harmonic is above Nyquist (`freq * 1 > sampleRate / 2`)
and `nstages >= 1` (so for every stage count in `[1, 23]`), for every
`SampleCount` and every content of the input block, the output block after
`runFilter` is the input block. -/
theorem runFilter_pass_through (filt : Filter α) (mem : Mem α) (SampleCount : Nat)
    (habove : filt.freq * 1 > filt.sampleRate / 2) (hn : 1 ≤ filt.nstages) :
    readBuf (runFilter filt mem SampleCount).2 filt.outputBuffer SampleCount =
      readBuf mem filt.inputBuffer SampleCount := by
  obtain ⟨k, hk⟩ : ∃ k, filt.nstages.toNat = k + 1 := ⟨filt.nstages.toNat - 1, by omega⟩
  have hg : filt.freq * ((0 + 1 : Nat) : α) > filt.sampleRate / 2 := by simpa using habove
  rw [runFilter, hk, runStages, if_pos hg, if_pos rfl]
  apply readBuf_congr
  intro i hi
  show forLoop (copyStep filt.inputBuffer filt.outputBuffer) SampleCount mem
    filt.outputBuffer i = mem filt.inputBuffer i
  rw [forLoop_copyStep]
  simp [hi]

end Run


/-- C2 at `aboveFilter` on a block of three samples. -/
theorem runFilter_pass_through_witness :
    aboveFilter.freq * 1 > aboveFilter.sampleRate / 2 ∧ 1 ≤ aboveFilter.nstages ∧
      readBuf (runFilter aboveFilter rampMem 3).2 aboveFilter.outputBuffer 3 =
        readBuf rampMem aboveFilter.inputBuffer 3 :=
  ⟨by norm_num [aboveFilter], by simp [aboveFilter],
    runFilter_pass_through aboveFilter rampMem 3 (by norm_num [aboveFilter])
      (by simp [aboveFilter])⟩

section Rejection

/-- The three-term recurrence of a sampled sine. -/
theorem sin_step (w : ℝ) (n : Nat) :
    Real.sin (w * ((n + 2 : Nat) : ℝ)) =
      2 * Real.cos w * Real.sin (w * ((n + 1 : Nat) : ℝ)) - Real.sin (w * (n : ℝ)) := by
  have e1 : w * ((n + 2 : Nat) : ℝ) = w * ((n + 1 : Nat) : ℝ) + w := by push_cast; ring
  have e2 : w * (n : ℝ) = w * ((n + 1 : Nat) : ℝ) - w := by push_cast; ring
  rw [e1, e2, Real.sin_add, Real.sin_sub]
  ring

/-- A freshly reset notch stage tuned to `w` and fed `sin (w * t)`: after `n + 2`
samples the history holds the last two inputs and outputs, the coefficients are
as before, and output sample `i` is `K * R ^ (i - 1) * sin (w * i)`. -/
theorem forLoop_sampleStep_sine (input output : Nat) (K R w : ℝ) (stage : FilterStage ℝ)
    (mem : Mem ℝ)
    (hpi : stage.prevIn = (0, 0)) (hpo : stage.prevOut = (0, 0))
    (ha0 : stage.a0 = K) (ha1 : stage.a1 = -2 * K * Real.cos w) (ha2 : stage.a2 = K)
    (hb1 : stage.b1 = 2 * R * Real.cos w) (hb2 : stage.b2 = -R ^ 2)
    (hmem : ∀ i : Nat, mem input i = Real.sin (w * (i : ℝ))) (n : Nat) :
    (forLoop (sampleStep input output) (n + 2) (stage, mem)).1.prevIn =
        (Real.sin (w * (n : ℝ)), Real.sin (w * ((n + 1 : Nat) : ℝ))) ∧
      (forLoop (sampleStep input output) (n + 2) (stage, mem)).1.prevOut =
        (K * R ^ (n - 1) * Real.sin (w * (n : ℝ)),
          K * R ^ n * Real.sin (w * ((n + 1 : Nat) : ℝ))) ∧
      ((forLoop (sampleStep input output) (n + 2) (stage, mem)).1.a0 = K ∧
        (forLoop (sampleStep input output) (n + 2) (stage, mem)).1.a1 = -2 * K * Real.cos w ∧
        (forLoop (sampleStep input output) (n + 2) (stage, mem)).1.a2 = K ∧
        (forLoop (sampleStep input output) (n + 2) (stage, mem)).1.b1 = 2 * R * Real.cos w ∧
        (forLoop (sampleStep input output) (n + 2) (stage, mem)).1.b2 = -R ^ 2) ∧
      ∀ i : Nat, i < n + 2 →
        (forLoop (sampleStep input output) (n + 2) (stage, mem)).2 output i =
          K * R ^ (i - 1) * Real.sin (w * (i : ℝ)) := by
  induction n with
  | zero =>
    have h0 : mem input 0 = 0 := by simpa using hmem 0
    have h1 : mem input 1 = Real.sin w := by simpa using hmem 1
    have hw : (mem.write output 0 0) input 1 = mem input 1 :=
      Mem.write_other _ _ _ _ _ _ (by omega)
    refine ⟨?_, ?_, ?_, ?_⟩
    · simp [forLoop, sampleStep, hpi, hpo, ha0, ha1, ha2, hb1, hb2, h0, h1, hw]
    · simp [forLoop, sampleStep, hpi, hpo, ha0, ha1, ha2, hb1, hb2, h0, h1, hw]
    · simp [forLoop, sampleStep, hpi, hpo, ha0, ha1, ha2, hb1, hb2, h0, h1, hw]
    · intro i hi
      have hi' : i = 0 ∨ i = 1 := by omega
      rcases hi' with rfl | rfl
      · simp [forLoop, sampleStep, hpi, hpo, ha0, ha1, ha2, hb1, hb2, h0, h1, hw,
          Mem.write_other]
      · simp [forLoop, sampleStep, hpi, hpo, ha0, ha1, ha2, hb1, hb2, h0, h1, hw]
  | succ n ih =>
    obtain ⟨ihi, iho, ⟨i0, i1, i2, i3, i4⟩, ihm⟩ := ih
    have hin : (forLoop (sampleStep input output) (n + 2) (stage, mem)).2 input (n + 2) =
        Real.sin (w * ((n + 2 : Nat) : ℝ)) := by
      rw [(forLoop_sampleStep input output (n + 2) stage mem).2.2 input (n + 2) (by omega)]
      exact hmem (n + 2)
    have hout : K * Real.sin (w * ((n + 2 : Nat) : ℝ)) +
          -2 * K * Real.cos w * Real.sin (w * ((n + 1 : Nat) : ℝ)) +
          K * Real.sin (w * (n : ℝ)) +
          2 * R * Real.cos w * (K * R ^ n * Real.sin (w * ((n + 1 : Nat) : ℝ))) +
          -R ^ 2 * (K * R ^ (n - 1) * Real.sin (w * (n : ℝ))) =
        K * R ^ (n + 1) * Real.sin (w * ((n + 2 : Nat) : ℝ)) := by
      rcases n with _ | m
      · rw [sin_step w 0]
        simp
        ring
      · rw [sin_step w (m + 1)]
        simp only [Nat.add_sub_cancel]
        ring
    have hval : (forLoop (sampleStep input output) (n + 1 + 2) (stage, mem)).2 output (n + 2) =
        K * R ^ (n + 1) * Real.sin (w * ((n + 2 : Nat) : ℝ)) := by
      show (forLoop (sampleStep input output) (n + 2 + 1) (stage, mem)).2 output (n + 2) = _
      rw [forLoop]
      simp only [sampleStep, Mem.write_same, hin, ihi, iho, i0, i1, i2, i3, i4]
      exact hout
    refine ⟨?_, ?_, ?_, ?_⟩
    · show (forLoop (sampleStep input output) (n + 2 + 1) (stage, mem)).1.prevIn = _
      rw [forLoop]
      simp only [sampleStep, hin, ihi]
    · show (forLoop (sampleStep input output) (n + 2 + 1) (stage, mem)).1.prevOut = _
      rw [forLoop]
      simp only [sampleStep, Mem.write_same, hin, ihi, iho, i0, i1, i2, i3, i4, hout,
        Nat.add_sub_cancel]
    · show (forLoop (sampleStep input output) (n + 2 + 1) (stage, mem)).1.a0 = K ∧ _
      rw [forLoop]
      simp only [sampleStep]
      exact ⟨i0, i1, i2, i3, i4⟩
    · intro i hi
      by_cases hlast : i = n + 2
      · subst hlast
        rw [hval]
        simp
      · have hlt : i < n + 2 := by omega
        rw [← ihm i hlt]
        show (forLoop (sampleStep input output) (n + 2 + 1) (stage, mem)).2 output i = _
        rw [forLoop]
        simp only [sampleStep]
        exact Mem.write_other _ _ _ _ _ _ (by omega)

section Generic

variable {α : Type} [LinearOrderedField α]

theorem connectPort_input_eq [FloorRing α] (cos : α → α) (M_PI : α) (filt : Filter α)
    (mem : Mem α) (DataLocation : Nat) :
    connectPortToFilter cos M_PI filt mem IO_INPUT DataLocation =
      { filt with inputBuffer := DataLocation } := by
  simp [connectPortToFilter, IO_INPUT]

theorem connectPort_output_eq [FloorRing α] (cos : α → α) (M_PI : α) (filt : Filter α)
    (mem : Mem α) (DataLocation : Nat) :
    connectPortToFilter cos M_PI filt mem IO_OUTPUT DataLocation =
      { filt with outputBuffer := DataLocation } := by
  simp [connectPortToFilter, IO_INPUT, IO_OUTPUT]

/-- With one active stage below Nyquist, `runFilter` is the sample loop of
stage 0. -/
theorem runFilter_single_stage (filt : Filter α) (mem : Mem α) (n : Nat)
    (h1 : filt.nstages = 1) (hg : ¬ filt.freq * 1 > filt.sampleRate / 2) :
    (runFilter filt mem n).2 =
      (forLoop (sampleStep filt.inputBuffer filt.outputBuffer) n (filt.stages 0, mem)).2 := by
  have hg' : ¬ filt.freq * ((0 + 1 : Nat) : α) > filt.sampleRate / 2 := by simpa using hg
  have hn : filt.nstages.toNat = 0 + 1 := by rw [h1]; rfl
  rw [runFilter, hn, runStages, if_neg hg']
  simp only [runStages]

/-- The fields of the instance configured for the rejection scenario. -/
theorem configured_fields [FloorRing α] (cos sin : α → α) (M_PI : α) (raw : Filter α) :
    (configured cos M_PI raw (sineMem sin M_PI)).inputBuffer = 0 ∧
      (configured cos M_PI raw (sineMem sin M_PI)).outputBuffer = 1 ∧
      (configured cos M_PI raw (sineMem sin M_PI)).freq = 1000 ∧
      (configured cos M_PI raw (sineMem sin M_PI)).sampleRate = 44100 ∧
      (configured cos M_PI raw (sineMem sin M_PI)).nstages = 1 ∧
      (configured cos M_PI raw (sineMem sin M_PI)).stages 0 =
        updateStage cos M_PI 1000 44100 0 := by
  have ht : truncToInt (sineMem sin M_PI 3 0) = 1 := by
    simp [sineMem, truncToInt]
  have hf : sineMem sin M_PI 2 0 = 1000 := by simp [sineMem]
  have hM : ((MAX_STAGES : Nat) : Int) = 23 := rfl
  refine ⟨?_, ?_, ?_, ?_, ?_, ?_⟩ <;>
    simp only [configured, connectPort_output_eq, connectPort_input_eq,
      connectPort_nharmonics_eq, connectPort_freq_eq, ht, hf, hM]
  · simp [updateParameters_freq]
  · simp [updateParameters_sampleRate, instantiateFilter]
  · simp [updateParameters_nstages]
  · rw [updateParameters_active _ _ _ 0 (by simp)]
    simp [updateParameters_freq, updateParameters_sampleRate, instantiateFilter]

end Generic

/-- The output of the rejection scenario in closed form: sample `t` is
`K * R ^ (t - 1) * sin (2 * pi * (1000 / 44100) * t)`. -/
theorem runFilter_sine_closed_form (raw : Filter ℝ) (n t : Nat) (ht : t < n) :
    (runFilter (configured Real.cos Real.pi raw (sineMem Real.sin Real.pi))
        (sineMem Real.sin Real.pi) n).2 1 t =
      (1 - 2 * (1 - 0.0009) * Real.cos (2 * Real.pi * (1 * 1000 / 44100)) + (1 - 0.0009) ^ 2) /
          (2 - 2 * Real.cos (2 * Real.pi * (1 * 1000 / 44100))) *
        (1 - 0.0009) ^ (t - 1) * Real.sin (2 * Real.pi * (1 * 1000 / 44100) * (t : ℝ)) := by
  obtain ⟨hi, ho, hf, hs, hn, hst⟩ := configured_fields Real.cos Real.sin Real.pi raw
  have hg : ¬ (configured Real.cos Real.pi raw (sineMem Real.sin Real.pi)).freq * 1 >
      (configured Real.cos Real.pi raw (sineMem Real.sin Real.pi)).sampleRate / 2 := by
    rw [hf, hs]
    norm_num
  rw [runFilter_single_stage _ _ n hn hg, hi, ho, hst]
  have hc := updateStage_coefficients Real.cos Real.pi 1000 44100 0
  simp only [Nat.cast_zero, zero_add] at hc
  obtain ⟨c0, c1, c2, c3, c4⟩ := hc
  have hmem : ∀ i : Nat, sineMem Real.sin Real.pi 0 i =
      Real.sin (2 * Real.pi * (1 * 1000 / 44100) * (i : ℝ)) := by
    intro i
    simp [sineMem]
  rcases Nat.lt_or_ge n 2 with hlt | hge
  · have hn1 : n = 1 := by omega
    have ht0 : t = 0 := by omega
    subst hn1 ht0
    have h0 : sineMem Real.sin Real.pi 0 0 = 0 := by simp [sineMem]
    simp [forLoop, sampleStep, h0, updateStage_prevIn, updateStage_prevOut]
  · obtain ⟨m, rfl⟩ : ∃ m, n = m + 2 := ⟨n - 2, by omega⟩
    exact (forLoop_sampleStep_sine 0 1 _ _ _ _ _ (updateStage_prevIn ..) (updateStage_prevOut ..)
      c0 c1 c2 c3 c4 hmem m).2.2.2 t ht

/-- Bounds on the gain `K` of the stage tuned to 1000 Hz at 44100 Hz. -/
theorem gain_bounds :
    (1 - 0.0009 : ℝ) ≤
        (1 - 2 * (1 - 0.0009) * Real.cos (2 * Real.pi * (1 * 1000 / 44100)) + (1 - 0.0009) ^ 2) /
          (2 - 2 * Real.cos (2 * Real.pi * (1 * 1000 / 44100))) ∧
      (1 - 2 * (1 - 0.0009) * Real.cos (2 * Real.pi * (1 * 1000 / 44100)) + (1 - 0.0009) ^ 2) /
          (2 - 2 * Real.cos (2 * Real.pi * (1 * 1000 / 44100))) ≤ 1 := by
  have hlt : Real.cos (2 * Real.pi * (1 * 1000 / 44100)) < 1 :=
    cos_two_pi_mul_lt_one _ (by norm_num) (by norm_num)
  have hle : Real.cos (2 * Real.pi * (1 * 1000 / 44100)) ≤ 1 - 8 * (1000 / 44100) ^ 2 := by
    have hpi := Real.pi_pos
    have habs : |2 * Real.pi * (1 * 1000 / 44100)| ≤ Real.pi := by
      rw [abs_of_nonneg (by positivity)]
      nlinarith
    have h := Real.cos_le_one_sub_mul_cos_sq habs
    have e : 2 / Real.pi ^ 2 * (2 * Real.pi * (1 * 1000 / 44100)) ^ 2 =
        8 * (1000 / 44100) ^ 2 := by
      field_simp
      ring
    rw [e] at h
    exact h
  generalize Real.cos (2 * Real.pi * (1 * 1000 / 44100)) = c at hlt hle
  have hpos : 0 < 2 - 2 * c := by linarith
  constructor
  · rw [le_div_iff₀ hpos]
    nlinarith [sq_nonneg (1 - (1 - 0.0009 : ℝ))]
  · rw [div_le_one hpos]
    norm_num at hle ⊢
    nlinarith

/-- The scenario `sampleRate = 44100`, `freq = 1000`, `nstages = 1` with the
unit-amplitude sine of 1000 Hz, over the reals: output sample `t` of a block is
`K * R ^ (t - 1) * sin (2 * pi * f * t)` with `f = 1000 / 44100`, `R = 1 - 0.0009`
and `K` the gain of the stage, and every output sample from index 2600 onward has
magnitude at most 0.1. -/
theorem sine_rejection_concrete (raw : Filter ℝ) (n t : Nat) (ht : t < n) :
    (runFilter (configured Real.cos Real.pi raw (sineMem Real.sin Real.pi))
          (sineMem Real.sin Real.pi) n).2 1 t =
        (1 - 2 * (1 - 0.0009) * Real.cos (2 * Real.pi * (1 * 1000 / 44100)) + (1 - 0.0009) ^ 2) /
            (2 - 2 * Real.cos (2 * Real.pi * (1 * 1000 / 44100))) *
          (1 - 0.0009) ^ (t - 1) * Real.sin (2 * Real.pi * (1 * 1000 / 44100) * (t : ℝ)) ∧
      (2600 ≤ t →
        |(runFilter (configured Real.cos Real.pi raw (sineMem Real.sin Real.pi))
          (sineMem Real.sin Real.pi) n).2 1 t| ≤ 0.1) := by
  refine ⟨runFilter_sine_closed_form raw n t ht, fun h2600 => ?_⟩
  rw [runFilter_sine_closed_form raw n t ht]
  obtain ⟨hK1, hK2⟩ := gain_bounds
  generalize (1 - 2 * (1 - 0.0009) * Real.cos (2 * Real.pi * (1 * 1000 / 44100)) +
    (1 - 0.0009) ^ 2) / (2 - 2 * Real.cos (2 * Real.pi * (1 * 1000 / 44100))) = K at hK1 hK2
  have hK0 : 0 ≤ K := le_trans (by norm_num) hK1
  have hpow : (1 - 0.0009 : ℝ) ^ (t - 1) ≤ 0.1 := by
    have h1 : (1 - 0.0009 : ℝ) ^ (t - 1) ≤ (1 - 0.0009 : ℝ) ^ 2599 :=
      pow_le_pow_of_le_one (by norm_num) (by norm_num) (by omega)
    have h2 : (1 - 0.0009 : ℝ) ^ 2599 ≤ 0.1 := by norm_num
    exact le_trans h1 h2
  have hpow0 : 0 ≤ (1 - 0.0009 : ℝ) ^ (t - 1) := pow_nonneg (by norm_num) _
  have hsin := Real.abs_sin_le_one (2 * Real.pi * (1 * 1000 / 44100) * (t : ℝ))
  rw [abs_mul, abs_mul, abs_of_nonneg hK0, abs_of_nonneg hpow0]
  calc K * (1 - 0.0009 : ℝ) ^ (t - 1) * |Real.sin (2 * Real.pi * (1 * 1000 / 44100) * (t : ℝ))|
      ≤ 1 * (0.1 : ℝ) * 1 := by
        apply mul_le_mul _ hsin (abs_nonneg _) (by norm_num)
        exact mul_le_mul hK2 hpow hpow0 (by norm_num)
    _ = 0.1 := by norm_num

/-- C6 as stated fails: in the same scenario, in a block of 1000 samples, output
sample 500 has magnitude above 0.1 (it is `K * R ^ 499 * sin (2 * pi * f * 500)`,
at least `0.9991 * 0.5 * 0.5`). -/
theorem sine_rejection_at_500_refuted :
    0.1 < |(runFilter (configured Real.cos Real.pi (usedFilter ℝ) (sineMem Real.sin Real.pi))
        (sineMem Real.sin Real.pi) 1000).2 1 500| := by
  rw [runFilter_sine_closed_form (usedFilter ℝ) 1000 500 (by decide)]
  obtain ⟨hK1, _⟩ := gain_bounds
  generalize (1 - 2 * (1 - 0.0009) * Real.cos (2 * Real.pi * (1 * 1000 / 44100)) +
    (1 - 0.0009) ^ 2) / (2 - 2 * Real.cos (2 * Real.pi * (1 * 1000 / 44100))) = K at hK1
  have hsin : 1 / 2 ≤ Real.sin (2 * Real.pi * (1 * 1000 / 44100) * ((500 : Nat) : ℝ)) := by
    have hpi := Real.pi_pos
    have e : 2 * Real.pi * (1 * 1000 / 44100) * ((500 : Nat) : ℝ) =
        (Real.pi - 143 * Real.pi / 441) + ((11 : Nat) : ℝ) * (2 * Real.pi) := by
      push_cast
      ring
    rw [e, Real.sin_add_nat_mul_two_pi, Real.sin_pi_sub, ← Real.sin_pi_div_six]
    apply Real.sin_le_sin_of_le_of_le_pi_div_two <;> linarith
  have hpow : (0.5 : ℝ) ≤ (1 - 0.0009 : ℝ) ^ (500 - 1) := by norm_num
  have hprod : 0.1 < K * (1 - 0.0009 : ℝ) ^ (500 - 1) *
      Real.sin (2 * Real.pi * (1 * 1000 / 44100) * ((500 : Nat) : ℝ)) := by
    have h1 : (0.9991 : ℝ) * 0.5 ≤ K * (1 - 0.0009 : ℝ) ^ (500 - 1) :=
      mul_le_mul (by norm_num at hK1 ⊢; exact hK1) hpow (by norm_num)
        (le_trans (by norm_num) hK1)
    have h2 : (0.9991 : ℝ) * 0.5 * (1 / 2) ≤ K * (1 - 0.0009 : ℝ) ^ (500 - 1) *
        Real.sin (2 * Real.pi * (1 * 1000 / 44100) * ((500 : Nat) : ℝ)) :=
      mul_le_mul h1 hsin (by norm_num) (le_trans (by norm_num) h1)
    exact lt_of_lt_of_le (by norm_num) h2
  exact lt_of_lt_of_le hprod (le_abs_self _)

end Rejection

/-! ### `runFilter` against the specification of a cascade -/

section Extensionality

variable {α : Type}

/-- Two instances with equal fields are equal. -/
theorem Filter.eq_of_fields (a b : Filter α) (h1 : a.inputBuffer = b.inputBuffer)
    (h2 : a.outputBuffer = b.outputBuffer) (h3 : a.freq = b.freq)
    (h4 : a.sampleRate = b.sampleRate) (h5 : a.nstages = b.nstages)
    (h6 : ∀ i, a.stages i = b.stages i) : a = b := by
  cases a
  cases b
  simp only at h1 h2 h3 h4 h5 h6
  subst h1 h2 h3 h4 h5
  have : ∀ {f g : Nat → FilterStage α}, (∀ i, f i = g i) → f = g := fun h => funext h
  rw [this h6]

end Extensionality

section Refinement

variable {α : Type} [LinearOrderedField α]

theorem stageSeq_append (stage : FilterStage α) (xs ys : List α) :
    stageSeq stage (xs ++ ys) = stageSeq stage xs ++ stageSeq (stageEnd stage xs) ys := by
  induction xs generalizing stage with
  | nil => simp [stageSeq, stageEnd]
  | cons x xs ih => simp [stageSeq, stageEnd, ih]

theorem stageEnd_append (stage : FilterStage α) (xs ys : List α) :
    stageEnd stage (xs ++ ys) = stageEnd (stageEnd stage xs) ys := by
  induction xs generalizing stage with
  | nil => simp [stageEnd]
  | cons x xs ih => simp [stageEnd, ih]

theorem stageSeq_length (stage : FilterStage α) (xs : List α) :
    (stageSeq stage xs).length = xs.length := by
  induction xs generalizing stage with
  | nil => simp [stageSeq]
  | cons x xs ih => simp [stageSeq, ih]

/-- A stage keeps its coefficients while a sequence goes through it. -/
theorem stageEnd_coefficients (stage : FilterStage α) (xs : List α) :
    (stageEnd stage xs).a0 = stage.a0 ∧ (stageEnd stage xs).a1 = stage.a1 ∧
      (stageEnd stage xs).a2 = stage.a2 ∧ (stageEnd stage xs).b1 = stage.b1 ∧
      (stageEnd stage xs).b2 = stage.b2 := by
  induction xs generalizing stage with
  | nil => simp [stageEnd]
  | cons x xs ih =>
    simp only [stageEnd]
    exact ih _

theorem stageEnd_nil (stage : FilterStage α) : stageEnd stage [] = stage := rfl

theorem cascadeSeq_nil (xs : List α) : cascadeSeq ([] : List (FilterStage α)) xs = xs := rfl

theorem cascadeSeq_append (stages : List (FilterStage α)) (xs ys : List α) :
    cascadeSeq stages (xs ++ ys) =
      cascadeSeq stages xs ++ cascadeSeq (cascadeEnd stages xs) ys := by
  induction stages generalizing xs ys with
  | nil => simp [cascadeSeq, cascadeEnd]
  | cons stage stages ih =>
    rw [cascadeSeq_cons, cascadeSeq_cons, cascadeEnd, cascadeSeq_cons, stageSeq_append, ih]

theorem cascadeEnd_append (stages : List (FilterStage α)) (xs ys : List α) :
    cascadeEnd stages (xs ++ ys) = cascadeEnd (cascadeEnd stages xs) ys := by
  induction stages generalizing xs ys with
  | nil => simp [cascadeEnd]
  | cons stage stages ih =>
    simp only [cascadeEnd]
    rw [stageEnd_append, stageSeq_append, ih]

theorem cascadeEnd_length (stages : List (FilterStage α)) (xs : List α) :
    (cascadeEnd stages xs).length = stages.length := by
  induction stages generalizing xs with
  | nil => simp [cascadeEnd]
  | cons stage stages ih => simp [cascadeEnd, ih]

theorem cascadeEnd_nil_seq (stages : List (FilterStage α)) :
    cascadeEnd stages [] = stages := by
  induction stages with
  | nil => simp [cascadeEnd]
  | cons stage stages ih => simp [cascadeEnd, stageEnd, stageSeq, ih]

/-- The number of executed stages depends on `freq` and `sampleRate` only. -/
theorem runCount_congr (f g : Filter α) (hf : f.freq = g.freq)
    (hs : f.sampleRate = g.sampleRate) (k s : Nat) : runCount f k s = runCount g k s := by
  induction k generalizing s with
  | zero => simp [runCount]
  | succ k ih => simp [runCount, hf, hs, ih]

theorem runCount_le (filt : Filter α) (k s : Nat) : runCount filt k s ≤ k := by
  induction k generalizing s with
  | zero => simp [runCount]
  | succ k ih =>
    simp only [runCount]
    split_ifs
    · omega
    · have := ih (s + 1)
      omega

/-- The stage loop of `runFilter` entered at stage `s`, with `input` pointing to
the output array unless `s = 0`. -/
theorem runStages_spec (n output : Nat) (k : Nat) :
    ∀ (s input : Nat) (filt : Filter α) (mem : Mem α), (0 < s → input = output) →
      (0 < s + runCount filt k s →
        readBuf (runStages n output k s input filt mem).2 output n =
          cascadeSeq ((List.range' s (runCount filt k s)).map filt.stages)
            (readBuf mem input n)) ∧
      (List.range' s (runCount filt k s)).map (runStages n output k s input filt mem).1.stages =
        cascadeEnd ((List.range' s (runCount filt k s)).map filt.stages)
          (readBuf mem input n) ∧
      (∀ i, ¬ (s ≤ i ∧ i < s + runCount filt k s) →
        (runStages n output k s input filt mem).1.stages i = filt.stages i) ∧
      (runStages n output k s input filt mem).1.freq = filt.freq ∧
      (runStages n output k s input filt mem).1.sampleRate = filt.sampleRate ∧
      (runStages n output k s input filt mem).1.nstages = filt.nstages ∧
      (runStages n output k s input filt mem).1.inputBuffer = filt.inputBuffer ∧
      (runStages n output k s input filt mem).1.outputBuffer = filt.outputBuffer ∧
      (∀ b i, ¬ (b = output ∧ i < n) →
        (runStages n output k s input filt mem).2 b i = mem b i) := by
  induction k with
  | zero =>
    intro s input filt mem hin
    have hc : runCount filt 0 s = 0 := rfl
    have hr : runStages n output 0 s input filt mem = (filt, mem) := rfl
    rw [hc, hr]
    refine ⟨fun h => ?_, rfl, fun _ _ => rfl, rfl, rfl, rfl, rfl, rfl, fun _ _ _ => rfl⟩
    rw [hin (by omega)]
    rfl
  | succ k ih =>
    intro s input filt mem hin
    by_cases hg : filt.freq * ((s + 1 : Nat) : α) > filt.sampleRate / 2
    · have hc : runCount filt (k + 1) s = 0 := by rw [runCount, if_pos hg]
      rw [hc]
      by_cases hs : s = 0
      · have hr : runStages n output (k + 1) s input filt mem =
            (filt, forLoop (copyStep input output) n mem) := by
          rw [runStages, if_pos hg, if_pos hs]
        rw [hr]
        refine ⟨fun h => ?_, rfl, fun _ _ => rfl, rfl, rfl, rfl, rfl, rfl, fun b i hbi => ?_⟩
        · omega
        · show forLoop (copyStep input output) n mem b i = mem b i
          rw [forLoop_copyStep, if_neg hbi]
      · have hr : runStages n output (k + 1) s input filt mem = (filt, mem) := by
          rw [runStages, if_pos hg, if_neg hs]
        rw [hr]
        refine ⟨fun _ => ?_, rfl, fun _ _ => rfl, rfl, rfl, rfl, rfl, rfl, fun _ _ _ => rfl⟩
        rw [hin (by omega)]
        rfl
    · obtain ⟨hl1, hl2, hl3⟩ := forLoop_sampleStep input output n (filt.stages s) mem
      generalize hrdef : forLoop (sampleStep input output) n (filt.stages s, mem) = r
        at hl1 hl2 hl3
      have hrun : runStages n output (k + 1) s input filt mem =
          runStages n output k (s + 1) output
            { filt with stages := Function.update filt.stages s r.1 } r.2 := by
        rw [runStages, if_neg hg]
        simp only [hrdef]
      have hcount : runCount filt (k + 1) s =
          runCount { filt with stages := Function.update filt.stages s r.1 } k (s + 1) + 1 := by
        rw [runCount, if_neg hg]
        rw [runCount_congr filt { filt with stages := Function.update filt.stages s r.1 } rfl rfl]
      obtain ⟨h1, h2, h3, h4, h5, h6, h7, h8, h9⟩ :=
        ih (s + 1) output { filt with stages := Function.update filt.stages s r.1 } r.2
          (fun _ => rfl)
      rw [hrun, hcount]
      generalize runCount { filt with stages := Function.update filt.stages s r.1 } k (s + 1)
        = j at h1 h2 h3
      have hmap : (List.range' (s + 1) j).map (Function.update filt.stages s r.1) =
          (List.range' (s + 1) j).map filt.stages := by
        apply List.map_congr_left
        intro i hi
        have : i ≠ s := by
          have := (List.mem_range'_1.mp hi).1
          omega
        simp [Function.update_noteq this]
      simp only [hmap, hl2] at h1 h2
      refine ⟨fun _ => ?_, ?_, fun i hi => ?_, h4, h5, h6, h7, h8, fun b i hbi => ?_⟩
      · rw [h1 (by omega), List.range'_succ, List.map_cons, cascadeSeq_cons]
      · rw [List.range'_succ, List.map_cons, List.map_cons, cascadeEnd, h2,
          h3 s (by omega)]
        simp [hl1]
      · rw [h3 i (by omega)]
        have : i ≠ s := by omega
        simp [Function.update_noteq this]
      · rw [h9 b i hbi]
        exact hl3 b i hbi

/-- When the stages `s, ..., s + k - 1` are all below Nyquist, all `k` run. -/
theorem runCount_eq_of_below (filt : Filter α) (k : Nat) :
    ∀ s, (∀ i, i < k → ¬ aboveNyquist filt (s + i)) → runCount filt k s = k := by
  induction k with
  | zero => intro s _; rfl
  | succ k ih =>
    intro s h
    have hg : ¬ filt.freq * ((s + 1 : Nat) : α) > filt.sampleRate / 2 := h 0 (by omega)
    rw [runCount, if_neg hg, ih (s + 1)]
    intro i hi
    have e : s + 1 + i = s + (i + 1) := by omega
    rw [e]
    exact h (i + 1) (by omega)

/-- What `runFilter` does in terms of the specification: with `nstages >= 1`
the output block is the cascade of the executed stages on the input block; the
executed stages end as `cascadeEnd` says; every other stage, every other field
and every memory cell outside the output block is as before. -/
theorem runFilter_spec (filt : Filter α) (mem : Mem α) (n : Nat) :
    (1 ≤ filt.nstages →
        readBuf (runFilter filt mem n).2 filt.outputBuffer n =
          cascadeSeq (executedStages filt) (readBuf mem filt.inputBuffer n)) ∧
      (List.range (runCount filt filt.nstages.toNat 0)).map (runFilter filt mem n).1.stages =
        cascadeEnd (executedStages filt) (readBuf mem filt.inputBuffer n) ∧
      (∀ i, runCount filt filt.nstages.toNat 0 ≤ i →
        (runFilter filt mem n).1.stages i = filt.stages i) ∧
      (runFilter filt mem n).1.freq = filt.freq ∧
      (runFilter filt mem n).1.sampleRate = filt.sampleRate ∧
      (runFilter filt mem n).1.nstages = filt.nstages ∧
      (runFilter filt mem n).1.inputBuffer = filt.inputBuffer ∧
      (runFilter filt mem n).1.outputBuffer = filt.outputBuffer ∧
      (∀ b i, ¬ (b = filt.outputBuffer ∧ i < n) → (runFilter filt mem n).2 b i = mem b i) := by
  obtain ⟨h1, h2, h3, h4, h5, h6, h7, h8, h9⟩ :=
    runStages_spec n filt.outputBuffer filt.nstages.toNat 0 filt.inputBuffer filt mem
      (fun h => absurd h (lt_irrefl 0))
  rw [← List.range_eq_range'] at h1 h2
  refine ⟨fun hn => ?_, h2, fun i hi => h3 i (by omega), h4, h5, h6, h7, h8, h9⟩
  by_cases hpos : 0 < runCount filt filt.nstages.toNat 0
  · exact h1 (by omega)
  · obtain ⟨k, hk⟩ : ∃ k, filt.nstages.toNat = k + 1 := ⟨filt.nstages.toNat - 1, by omega⟩
    have hzero : runCount filt filt.nstages.toNat 0 = 0 := by omega
    have hg : filt.freq * ((0 + 1 : Nat) : α) > filt.sampleRate / 2 := by
      by_contra hg
      rw [hk, runCount, if_neg hg] at hzero
      omega
    rw [executedStages, hzero, runFilter, hk, runStages, if_pos hg, if_pos rfl]
    simp only [List.range_zero, List.map_nil, cascadeSeq_nil]
    apply readBuf_congr
    intro i hi
    show forLoop (copyStep filt.inputBuffer filt.outputBuffer) n mem filt.outputBuffer i =
      mem filt.inputBuffer i
    rw [forLoop_copyStep]
    simp [hi]

/-- The stage loop of `runFilter` keeps the coefficients of every stage. -/
theorem runStages_coefficients (n output : Nat) (k : Nat) :
    ∀ (s input : Nat) (filt : Filter α) (mem : Mem α) (i : Nat),
      ((runStages n output k s input filt mem).1.stages i).a0 = (filt.stages i).a0 ∧
        ((runStages n output k s input filt mem).1.stages i).a1 = (filt.stages i).a1 ∧
        ((runStages n output k s input filt mem).1.stages i).a2 = (filt.stages i).a2 ∧
        ((runStages n output k s input filt mem).1.stages i).b1 = (filt.stages i).b1 ∧
        ((runStages n output k s input filt mem).1.stages i).b2 = (filt.stages i).b2 := by
  induction k with
  | zero => intro s input filt mem i; exact ⟨rfl, rfl, rfl, rfl, rfl⟩
  | succ k ih =>
    intro s input filt mem i
    by_cases hg : filt.freq * ((s + 1 : Nat) : α) > filt.sampleRate / 2
    · by_cases hs : s = 0
      · rw [runStages, if_pos hg, if_pos hs]
        exact ⟨rfl, rfl, rfl, rfl, rfl⟩
      · rw [runStages, if_pos hg, if_neg hs]
        exact ⟨rfl, rfl, rfl, rfl, rfl⟩
    · have hl := (forLoop_sampleStep input output n (filt.stages s) mem).1
      generalize hrdef : forLoop (sampleStep input output) n (filt.stages s, mem) = r at hl
      have hrun : runStages n output (k + 1) s input filt mem =
          runStages n output k (s + 1) output
            { filt with stages := Function.update filt.stages s r.1 } r.2 := by
        rw [runStages, if_neg hg]
        simp only [hrdef]
      obtain ⟨h0, h1, h2, h3, h4⟩ :=
        ih (s + 1) output { filt with stages := Function.update filt.stages s r.1 } r.2 i
      rw [hrun, h0, h1, h2, h3, h4]
      by_cases his : i = s
      · subst his
        simp only [Function.update_same, hl]
        exact stageEnd_coefficients _ _
      · simp [Function.update_noteq his]

end Refinement

/-! ### C11, C13, C15, C18: composition, frame, block split and in-place use -/

section C11

variable {α : Type} [LinearOrderedField α]

/-- C11: for every instance with `nstages >= 1`, `freq > 0` and
`nstages * freq <= sampleRate / 2` (no active harmonic above Nyquist) and every
content of the input block, the output block after `runFilter`, in which every
stage after the first reads from and overwrites the output array, is the input
block sent through the composition of the stages `0, ..., nstages - 1`, each
mapping a whole sequence by `stageSeq` from the history it holds. -/
theorem runFilter_composition (filt : Filter α) (mem : Mem α) (SampleCount : Nat)
    (hn : 1 ≤ filt.nstages) (hfreq : 0 < filt.freq)
    (hbelow : (filt.nstages : α) * filt.freq ≤ filt.sampleRate / 2) :
    readBuf (runFilter filt mem SampleCount).2 filt.outputBuffer SampleCount =
      cascadeSeq ((List.range filt.nstages.toNat).map filt.stages)
        (readBuf mem filt.inputBuffer SampleCount) := by
  have hcount : runCount filt filt.nstages.toNat 0 = filt.nstages.toNat := by
    apply runCount_eq_of_below
    intro i hi
    unfold aboveNyquist
    have hle : ((0 + i + 1 : Nat) : α) ≤ (filt.nstages : α) := by
      have h1 : ((0 + i + 1 : Nat) : Int) ≤ filt.nstages := by omega
      have h2 : (((0 + i + 1 : Nat) : Int) : α) ≤ (filt.nstages : α) := Int.cast_le.mpr h1
      simpa using h2
    have : filt.freq * ((0 + i + 1 : Nat) : α) ≤ filt.sampleRate / 2 :=
      le_trans (by rw [mul_comm]; exact mul_le_mul_of_nonneg_right hle hfreq.le) hbelow
    exact not_lt.mpr this
  have h := (runFilter_spec filt mem SampleCount).1 hn
  rw [executedStages, hcount] at h
  exact h

/-- C11 at `cascadeFilter` (three stages, all below Nyquist) on a block of four
samples. -/
theorem runFilter_composition_witness :
    1 ≤ cascadeFilter.nstages ∧ 0 < cascadeFilter.freq ∧
      (cascadeFilter.nstages : ℚ) * cascadeFilter.freq ≤ cascadeFilter.sampleRate / 2 ∧
      readBuf (runFilter cascadeFilter rampMem 4).2 cascadeFilter.outputBuffer 4 =
        cascadeSeq ((List.range cascadeFilter.nstages.toNat).map cascadeFilter.stages)
          (readBuf rampMem cascadeFilter.inputBuffer 4) :=
  ⟨by simp [cascadeFilter], by norm_num [cascadeFilter], by norm_num [cascadeFilter],
    runFilter_composition cascadeFilter rampMem 4 (by simp [cascadeFilter])
      (by norm_num [cascadeFilter]) (by norm_num [cascadeFilter])⟩

/-- The executed stages of an instance after `runFilter` are those of the instance
before, in their new state. -/
theorem runFilter_executedStages (filt : Filter α) (mem : Mem α) (n : Nat) :
    runCount (runFilter filt mem n).1 (runFilter filt mem n).1.nstages.toNat 0 =
        runCount filt filt.nstages.toNat 0 ∧
      executedStages (runFilter filt mem n).1 =
        cascadeEnd (executedStages filt) (readBuf mem filt.inputBuffer n) := by
  obtain ⟨_, h2, _, h4, h5, h6, _, _, _⟩ := runFilter_spec filt mem n
  have hc : runCount (runFilter filt mem n).1 (runFilter filt mem n).1.nstages.toNat 0 =
      runCount filt filt.nstages.toNat 0 := by
    rw [h6]
    exact runCount_congr _ _ h4 h5 _ _
  refine ⟨hc, ?_⟩
  rw [executedStages, hc]
  exact h2

/-- C15: with `nstages >= 1`, one call of `runFilter` on a block holding
`xs ++ ys` gives the output block and the final instance that a call on a block
holding `xs` followed, without any other call in between, by a call on a block
holding `ys` gives: the output is the concatenation of the two outputs and the
final instances are equal. -/
theorem runFilter_block_split (filt : Filter α) (memWhole memFirst memSecond : Mem α)
    (xs ys : List α) (hn : 1 ≤ filt.nstages)
    (hwhole : readBuf memWhole filt.inputBuffer (xs.length + ys.length) = xs ++ ys)
    (hfirst : readBuf memFirst filt.inputBuffer xs.length = xs)
    (hsecond : readBuf memSecond filt.inputBuffer ys.length = ys) :
    readBuf (runFilter filt memWhole (xs.length + ys.length)).2 filt.outputBuffer
          (xs.length + ys.length) =
        readBuf (runFilter filt memFirst xs.length).2 filt.outputBuffer xs.length ++
          readBuf (runFilter (runFilter filt memFirst xs.length).1 memSecond ys.length).2
            filt.outputBuffer ys.length ∧
      (runFilter filt memWhole (xs.length + ys.length)).1 =
        (runFilter (runFilter filt memFirst xs.length).1 memSecond ys.length).1 := by
  obtain ⟨a1, a2, a3, a4, a5, a6, a7, a8, _⟩ :=
    runFilter_spec filt memWhole (xs.length + ys.length)
  obtain ⟨b1, b2, b3, b4, b5, b6, b7, b8, _⟩ := runFilter_spec filt memFirst xs.length
  obtain ⟨c1, c2, c3, c4, c5, c6, c7, c8, _⟩ :=
    runFilter_spec (runFilter filt memFirst xs.length).1 memSecond ys.length
  obtain ⟨hcount, hexec⟩ := runFilter_executedStages filt memFirst xs.length
  rw [b7, hsecond, hexec, hfirst, b8] at c1
  rw [hcount, b7, hsecond, hexec, hfirst] at c2
  rw [hcount] at c3
  rw [hwhole] at a1 a2
  rw [hfirst] at b1
  refine ⟨?_, ?_⟩
  · rw [a1 hn, b1 hn, c1 (by rw [b6]; exact hn), cascadeSeq_append]
  · apply Filter.eq_of_fields
    · rw [a7, c7, b7]
    · rw [a8, c8, b8]
    · rw [a4, c4, b4]
    · rw [a5, c5, b5]
    · rw [a6, c6, b6]
    · intro i
      by_cases hi : i < runCount filt filt.nstages.toNat 0
      · have hmap := a2.trans ((cascadeEnd_append _ _ _).trans c2.symm)
        exact List.map_inj_left.mp hmap i (List.mem_range.mpr hi)
      · rw [a3 i (by omega), c3 i (by omega), b3 i (by omega)]

/-- C15 at `cascadeFilter` with the blocks `[1, 2]` and `[3, 4, 5]`. -/
theorem runFilter_block_split_witness :
    1 ≤ cascadeFilter.nstages ∧
      readBuf rampMem cascadeFilter.inputBuffer
        (([1, 2] : List ℚ).length + ([3, 4, 5] : List ℚ).length) = [1, 2] ++ [3, 4, 5] ∧
      readBuf rampMem cascadeFilter.inputBuffer ([1, 2] : List ℚ).length = [1, 2] ∧
      readBuf rampMemFrom3 cascadeFilter.inputBuffer ([3, 4, 5] : List ℚ).length = [3, 4, 5] ∧
      (runFilter cascadeFilter rampMem (([1, 2] : List ℚ).length + ([3, 4, 5] : List ℚ).length)).1 =
        (runFilter (runFilter cascadeFilter rampMem ([1, 2] : List ℚ).length).1 rampMemFrom3
          ([3, 4, 5] : List ℚ).length).1 := by
  have hw : readBuf rampMem cascadeFilter.inputBuffer
      (([1, 2] : List ℚ).length + ([3, 4, 5] : List ℚ).length) = [1, 2] ++ [3, 4, 5] := by
    norm_num [readBuf, rampMem, cascadeFilter, List.range_succ]
  have hf : readBuf rampMem cascadeFilter.inputBuffer ([1, 2] : List ℚ).length = [1, 2] := by
    norm_num [readBuf, rampMem, cascadeFilter, List.range_succ]
  have hs : readBuf rampMemFrom3 cascadeFilter.inputBuffer ([3, 4, 5] : List ℚ).length =
      [3, 4, 5] := by
    norm_num [readBuf, rampMemFrom3, cascadeFilter, List.range_succ]
  exact ⟨by simp [cascadeFilter], hw, hf, hs,
    (runFilter_block_split cascadeFilter rampMem rampMem rampMemFrom3 [1, 2] [3, 4, 5]
      (by simp [cascadeFilter]) hw hf hs).2⟩

/-- Two instances that differ in the output pointer only produce the same
output block and the same final stages from the same memory. -/
theorem runFilter_output_pointer (A B : Filter α) (mem : Mem α) (n : Nat)
    (hi : A.inputBuffer = B.inputBuffer) (hf : A.freq = B.freq)
    (hs : A.sampleRate = B.sampleRate) (hk : A.nstages = B.nstages)
    (hst : A.stages = B.stages) (hn : 1 ≤ A.nstages) :
    readBuf (runFilter A mem n).2 A.outputBuffer n =
        readBuf (runFilter B mem n).2 B.outputBuffer n ∧
      (runFilter A mem n).1.stages = (runFilter B mem n).1.stages := by
  have hcount : runCount A A.nstages.toNat 0 = runCount B B.nstages.toNat 0 := by
    rw [hk]
    exact runCount_congr _ _ hf hs _ _
  have hexec : executedStages A = executedStages B := by
    rw [executedStages, executedStages, hcount, hst]
  obtain ⟨a1, a2, a3, _⟩ := runFilter_spec A mem n
  obtain ⟨b1, b2, b3, _⟩ := runFilter_spec B mem n
  rw [hi, hexec] at a1
  rw [hi, hexec, hcount] at a2
  rw [hcount, hst] at a3
  refine ⟨?_, ?_⟩
  · rw [a1 hn, b1 (by rw [← hk]; exact hn)]
  · funext i
    by_cases hlt : i < runCount B B.nstages.toNat 0
    · exact List.map_inj_left.mp (a2.trans b2.symm) i (List.mem_range.mpr hlt)
    · rw [a3 i (by omega), b3 i (by omega)]

/-- C18: with `nstages >= 1`, after the input port is connected to array `p`,
running `runFilter` with the output port connected to the same array `p` leaves in
`p` the block that `runFilter` writes to `q` when the output port is connected to
another array `q` and array `p` holds the same input, and leaves the same stages;
the pass-through and partial-cascade cases are included. -/
theorem runFilter_in_place [FloorRing α] (cos : α → α) (M_PI : α) (filt : Filter α)
    (mem : Mem α) (p q SampleCount : Nat) (hn : 1 ≤ filt.nstages) :
    readBuf
          (runFilter
            (connectPortToFilter cos M_PI (connectPortToFilter cos M_PI filt mem IO_INPUT p) mem
              IO_OUTPUT p) mem SampleCount).2 p SampleCount =
        readBuf
          (runFilter
            (connectPortToFilter cos M_PI (connectPortToFilter cos M_PI filt mem IO_INPUT p) mem
              IO_OUTPUT q) mem SampleCount).2 q SampleCount ∧
      (runFilter
          (connectPortToFilter cos M_PI (connectPortToFilter cos M_PI filt mem IO_INPUT p) mem
            IO_OUTPUT p) mem SampleCount).1.stages =
        (runFilter
          (connectPortToFilter cos M_PI (connectPortToFilter cos M_PI filt mem IO_INPUT p) mem
            IO_OUTPUT q) mem SampleCount).1.stages := by
  have h := runFilter_output_pointer
    (connectPortToFilter cos M_PI (connectPortToFilter cos M_PI filt mem IO_INPUT p) mem
      IO_OUTPUT p)
    (connectPortToFilter cos M_PI (connectPortToFilter cos M_PI filt mem IO_INPUT p) mem
      IO_OUTPUT q) mem SampleCount
    (by simp [connectPort_output_eq, connectPort_input_eq])
    (by simp [connectPort_output_eq, connectPort_input_eq])
    (by simp [connectPort_output_eq, connectPort_input_eq])
    (by simp [connectPort_output_eq, connectPort_input_eq])
    (by simp [connectPort_output_eq, connectPort_input_eq])
    (by simpa [connectPort_output_eq, connectPort_input_eq] using hn)
  have hp : (connectPortToFilter cos M_PI (connectPortToFilter cos M_PI filt mem IO_INPUT p) mem
      IO_OUTPUT p).outputBuffer = p := by simp [connectPort_output_eq]
  have hq : (connectPortToFilter cos M_PI (connectPortToFilter cos M_PI filt mem IO_INPUT p) mem
      IO_OUTPUT q).outputBuffer = q := by simp [connectPort_output_eq]
  rw [hp, hq] at h
  exact h

/-- C18 at `cascadeFilter` with the arrays 0 and 1 on a block of four samples. -/
theorem runFilter_in_place_witness :
    1 ≤ cascadeFilter.nstages ∧
      readBuf
          (runFilter
            (connectPortToFilter (fun _ => 0) 3
              (connectPortToFilter (fun _ => 0) 3 cascadeFilter rampMem IO_INPUT 0) rampMem
              IO_OUTPUT 0) rampMem 4).2 0 4 =
        readBuf
          (runFilter
            (connectPortToFilter (fun _ => 0) 3
              (connectPortToFilter (fun _ => 0) 3 cascadeFilter rampMem IO_INPUT 0) rampMem
              IO_OUTPUT 1) rampMem 4).2 1 4 :=
  ⟨by simp [cascadeFilter],
    (runFilter_in_place (fun _ => 0) 3 cascadeFilter rampMem 0 1 4
      (by simp [cascadeFilter])).1⟩

end C11

/-! ### C12: the coefficients of reachable instances -/

section C12

variable {α : Type} [LinearOrderedField α]

/-- After `updateParameters` every active stage holds the derived stage. -/
theorem updateParameters_consistent (cos : α → α) (M_PI : α) (g : Filter α) (i : Nat)
    (hi : (i : Int) < (updateParameters cos M_PI g).nstages) :
    (updateParameters cos M_PI g).stages i =
      updateStage cos M_PI (updateParameters cos M_PI g).freq
        (updateParameters cos M_PI g).sampleRate i := by
  rw [updateParameters_nstages] at hi
  rw [updateParameters_active cos M_PI g i hi, updateParameters_freq,
    updateParameters_sampleRate]

/-- In every reachable instance the coefficients of every active stage are those
of the stage that `updateParameters` derives from the current `freq` and
`sampleRate`. -/
theorem reachable_coefficients [FloorRing α] (cos : α → α) (M_PI : α) (filt : Filter α)
    (h : Reachable cos M_PI filt) :
    ∀ i : Nat, (i : Int) < filt.nstages →
      (filt.stages i).a0 = (updateStage cos M_PI filt.freq filt.sampleRate i).a0 ∧
        (filt.stages i).a1 = (updateStage cos M_PI filt.freq filt.sampleRate i).a1 ∧
        (filt.stages i).a2 = (updateStage cos M_PI filt.freq filt.sampleRate i).a2 ∧
        (filt.stages i).b1 = (updateStage cos M_PI filt.freq filt.sampleRate i).b1 ∧
        (filt.stages i).b2 = (updateStage cos M_PI filt.freq filt.sampleRate i).b2 := by
  induction h with
  | instantiate raw SampleRate =>
    intro i hi
    rw [instantiateFilter] at hi ⊢
    rw [updateParameters_consistent cos M_PI _ i hi]
    exact ⟨rfl, rfl, rfl, rfl, rfl⟩
  | connect filt mem Port DataLocation _ ih =>
    intro i hi
    by_cases h0 : Port = IO_INPUT
    · subst h0
      rw [connectPort_input_eq] at hi ⊢
      exact ih i hi
    · by_cases h1 : Port = IO_OUTPUT
      · subst h1
        rw [connectPort_output_eq] at hi ⊢
        exact ih i hi
      · by_cases h2 : Port = IO_FREQ
        · subst h2
          rw [connectPort_freq_eq] at hi ⊢
          rw [updateParameters_consistent cos M_PI _ i hi]
          exact ⟨rfl, rfl, rfl, rfl, rfl⟩
        · by_cases h3 : Port = IO_NHARMONICS
          · subst h3
            rw [connectPort_nharmonics_eq] at hi ⊢
            rw [updateParameters_consistent cos M_PI _ i hi]
            exact ⟨rfl, rfl, rfl, rfl, rfl⟩
          · have he : connectPortToFilter cos M_PI filt mem Port DataLocation = filt := by
              simp [connectPortToFilter, h0, h1, h2, h3]
            rw [he] at hi ⊢
            exact ih i hi
  | run filt mem SampleCount _ ih =>
    intro i hi
    obtain ⟨_, _, _, h4, h5, h6, _, _, _⟩ := runFilter_spec filt mem SampleCount
    obtain ⟨c0, c1, c2, c3, c4⟩ := runStages_coefficients SampleCount filt.outputBuffer
      filt.nstages.toNat 0 filt.inputBuffer filt mem i
    rw [h6] at hi
    rw [h4, h5]
    obtain ⟨i0, i1, i2, i3, i4⟩ := ih i hi
    exact ⟨c0.trans i0, c1.trans i1, c2.trans i2, c3.trans i3, c4.trans i4⟩

/-- Every reachable instance has between 1 and `MAX_STAGES` active stages. -/
theorem reachable_nstages [FloorRing α] (cos : α → α) (M_PI : α) (filt : Filter α)
    (h : Reachable cos M_PI filt) : 1 ≤ filt.nstages ∧ filt.nstages ≤ 23 := by
  induction h with
  | instantiate raw SampleRate =>
    rw [instantiateFilter, updateParameters_nstages]
    constructor <;> norm_num
  | connect filt mem Port DataLocation _ ih =>
    by_cases h0 : Port = IO_INPUT
    · subst h0
      rw [connectPort_input_eq]
      exact ih
    · by_cases h1 : Port = IO_OUTPUT
      · subst h1
        rw [connectPort_output_eq]
        exact ih
      · by_cases h2 : Port = IO_FREQ
        · subst h2
          rw [connectPort_freq_eq, updateParameters_nstages]
          exact ih
        · by_cases h3 : Port = IO_NHARMONICS
          · subst h3
            rw [connectPort_nharmonics_eq, updateParameters_nstages]
            have hM : ((MAX_STAGES : Nat) : Int) = 23 := rfl
            simp only [hM]
            split_ifs <;> omega
          · have he : connectPortToFilter cos M_PI filt mem Port DataLocation = filt := by
              simp [connectPortToFilter, h0, h1, h2, h3]
            rw [he]
            exact ih
  | run filt mem SampleCount _ ih =>
    rw [(runFilter_spec filt mem SampleCount).2.2.2.2.2.1]
    exact ih

/-- C12: in every instance reachable from `instantiateFilter` by calls of
`connectPortToFilter` (any port, any location and value) and `runFilter`, every
active stage `i < nstages` holds the coefficients of the closed form for harmonic
`i + 1` at the current `freq` and `sampleRate`: `a0 = a2 = K`, `a1 = -2 * K * c`,
`b1 = 2 * R * c`, `b2 = -R^2` with `c = cos (2 * M_PI * (i + 1) * freq / sampleRate)`,
`R = 1 - 0.0009` and `K = (1 - 2 * R * c + R^2) / (2 - 2 * c)`. -/
theorem coefficients_invariant [FloorRing α] (cos : α → α) (M_PI : α) (filt : Filter α)
    (h : Reachable cos M_PI filt) (i : Nat) (hi : (i : Int) < filt.nstages) :
    let c := cos (2 * M_PI * (((i : α) + 1) * filt.freq / filt.sampleRate))
    let R : α := 1 - 0.0009
    let K : α := (1 - 2 * R * c + R ^ 2) / (2 - 2 * c)
    (filt.stages i).a0 = K ∧ (filt.stages i).a1 = -2 * K * c ∧ (filt.stages i).a2 = K ∧
      (filt.stages i).b1 = 2 * R * c ∧ (filt.stages i).b2 = -R ^ 2 := by
  intro c R K
  obtain ⟨h0, h1, h2, h3, h4⟩ := reachable_coefficients cos M_PI filt h i hi
  have hc := updateStage_coefficients cos M_PI filt.freq filt.sampleRate i
  simp only at hc
  exact ⟨h0.trans hc.1, h1.trans hc.2.1, h2.trans hc.2.2.1, h3.trans hc.2.2.2.1,
    h4.trans hc.2.2.2.2⟩

end C12

/-- C12 at the instance created at 44100 Hz, set to 5 harmonics and run on a
block of 8 samples, and its stage 4. -/
theorem coefficients_invariant_witness :
    Reachable Real.cos Real.pi
        (runFilter
          (connectPortToFilter Real.cos Real.pi
            (instantiateFilter Real.cos Real.pi (usedFilter ℝ) 44100) (fun _ _ => 5)
            IO_NHARMONICS 7) (fun _ _ => 1) 8).1 ∧
      ((4 : Nat) : Int) <
        (runFilter
          (connectPortToFilter Real.cos Real.pi
            (instantiateFilter Real.cos Real.pi (usedFilter ℝ) 44100) (fun _ _ => 5)
            IO_NHARMONICS 7) (fun _ _ => 1) 8).1.nstages ∧
      ((runFilter
          (connectPortToFilter Real.cos Real.pi
            (instantiateFilter Real.cos Real.pi (usedFilter ℝ) 44100) (fun _ _ => 5)
            IO_NHARMONICS 7) (fun _ _ => 1) 8).1.stages 4).b2 = -(1 - 0.0009) ^ 2 := by
  have hr : Reachable Real.cos Real.pi
      (runFilter
        (connectPortToFilter Real.cos Real.pi
          (instantiateFilter Real.cos Real.pi (usedFilter ℝ) 44100) (fun _ _ => 5)
          IO_NHARMONICS 7) (fun _ _ => 1) 8).1 :=
    Reachable.run _ _ _ (Reachable.connect _ _ _ _ (Reachable.instantiate _ _))
  have hn : ((4 : Nat) : Int) <
      (runFilter
        (connectPortToFilter Real.cos Real.pi
          (instantiateFilter Real.cos Real.pi (usedFilter ℝ) 44100) (fun _ _ => 5)
          IO_NHARMONICS 7) (fun _ _ => 1) 8).1.nstages := by
    have hfl : ⌊(5 : ℝ)⌋ = 5 := by simp
    rw [(runFilter_spec _ _ _).2.2.2.2.2.1, connectPort_nharmonics_eq,
      updateParameters_nstages, truncToInt_of_nonneg _ (by norm_num)]
    simp [MAX_STAGES, hfl]
  exact ⟨hr, hn, (coefficients_invariant Real.cos Real.pi _ hr 4 hn).2.2.2.2⟩

/-! ### The divisor of the gain over exact reals -/

section Trig

/-- Over exact real arithmetic (`cos = Real.cos`, `M_PI = Real.pi`, no
rounding): for `freq > 0`, `sampleRate > 0` and a stage `i < nstages` that is not
above Nyquist, the normalised frequency `f = (i + 1) * freq / sampleRate` lies in
`(0, 1/2]`, the real number `2 - 2 * cos (2 * pi * f)` is not zero, and the `a0`
of the exact model is that quotient.  This says nothing about the value the
double-precision expression of line 73 takes. -/
theorem executed_stage_divisor_ne_zero (filt : Filter ℝ) (i : Nat)
    (hfreq : 0 < filt.freq) (hrate : 0 < filt.sampleRate)
    (hi : (i : Int) < filt.nstages) (hbelow : ¬ aboveNyquist filt i) :
    let f : ℝ := ((i : ℝ) + 1) * filt.freq / filt.sampleRate
    let c : ℝ := Real.cos (2 * Real.pi * f)
    let R : ℝ := 1 - 0.0009
    0 < f ∧ f ≤ 1 / 2 ∧ 2 - 2 * c ≠ 0 ∧
      ((updateParameters Real.cos Real.pi filt).stages i).a0 * (2 - 2 * c) =
        1 - 2 * R * c + R ^ 2 := by
  intro f c R
  have hf0 : 0 < f := by positivity
  have hf1 : f ≤ 1 / 2 := by
    have hb : filt.freq * ((i : ℝ) + 1) ≤ filt.sampleRate / 2 := by
      have := not_lt.mp hbelow
      simpa [aboveNyquist] using this
    show ((i : ℝ) + 1) * filt.freq / filt.sampleRate ≤ 1 / 2
    rw [div_le_iff₀ hrate]
    linarith
  have hlt : c < 1 := cos_two_pi_mul_lt_one f hf0 hf1
  have hne : 2 - 2 * c ≠ 0 := by linarith
  refine ⟨hf0, hf1, hne, ?_⟩
  rw [updateParameters_active Real.cos Real.pi filt i hi,
    (updateStage_coefficients Real.cos Real.pi filt.freq filt.sampleRate i).1]
  exact div_mul_cancel₀ _ hne

end Trig

/-! ### The zero on the harmonic and the gain at DC over exact reals -/

section Difference

variable {α : Type} [LinearOrderedField α]

/-- A sample written by the sample loop is not touched by the later iterations. -/
theorem forLoop_sampleStep_stable (input output : Nat) (stage : FilterStage α) (mem : Mem α)
    (t n : Nat) (h : t < n) :
    (forLoop (sampleStep input output) n (stage, mem)).2 output t =
      (forLoop (sampleStep input output) (t + 1) (stage, mem)).2 output t := by
  induction n with
  | zero => omega
  | succ n ih =>
    by_cases hn : t = n
    · subst hn
      rfl
    · rw [← ih (by omega), forLoop]
      simp only [sampleStep]
      exact Mem.write_other _ _ _ _ _ _ (by omega)

/-- The history of the stage after `t + 1` samples: the newest entries are input
sample `t` and output sample `t`, the older entries are the newest ones of the
state before. -/
theorem forLoop_sampleStep_history (input output : Nat) (stage : FilterStage α) (mem : Mem α)
    (t : Nat) :
    (forLoop (sampleStep input output) (t + 1) (stage, mem)).1.prevIn =
        ((forLoop (sampleStep input output) t (stage, mem)).1.prevIn.2, mem input t) ∧
      (forLoop (sampleStep input output) (t + 1) (stage, mem)).1.prevOut =
        ((forLoop (sampleStep input output) t (stage, mem)).1.prevOut.2,
          (forLoop (sampleStep input output) (t + 1) (stage, mem)).2 output t) := by
  have hin : (forLoop (sampleStep input output) t (stage, mem)).2 input t = mem input t :=
    (forLoop_sampleStep input output t stage mem).2.2 input t (by omega)
  constructor
  · rw [forLoop]
    simp only [sampleStep, hin]
  · rw [forLoop]
    simp only [sampleStep]

/-- The difference equation of a stage on the values of a block: from the third
sample on, an output sample is
`a0 * x[t] + a1 * x[t-1] + a2 * x[t-2] + b1 * y[t-1] + b2 * y[t-2]`. -/
theorem forLoop_sampleStep_difference (input output : Nat) (stage : FilterStage α)
    (mem : Mem α) (t n : Nat) (h : t + 2 < n) :
    (forLoop (sampleStep input output) n (stage, mem)).2 output (t + 2) =
      stage.a0 * mem input (t + 2) + stage.a1 * mem input (t + 1) + stage.a2 * mem input t +
        stage.b1 * (forLoop (sampleStep input output) n (stage, mem)).2 output (t + 1) +
        stage.b2 * (forLoop (sampleStep input output) n (stage, mem)).2 output t := by
  rw [forLoop_sampleStep_stable input output stage mem (t + 2) n h,
    forLoop_sampleStep_stable input output stage mem (t + 1) n (by omega),
    forLoop_sampleStep_stable input output stage mem t n (by omega)]
  obtain ⟨hi2, ho2⟩ := forLoop_sampleStep_history input output stage mem (t + 1)
  obtain ⟨hi1, ho1⟩ := forLoop_sampleStep_history input output stage mem t
  have hin : (forLoop (sampleStep input output) (t + 2) (stage, mem)).2 input (t + 2) =
      mem input (t + 2) :=
    (forLoop_sampleStep input output (t + 2) stage mem).2.2 input (t + 2) (by omega)
  obtain ⟨c0, c1, c2, c3, c4⟩ := stageEnd_coefficients stage (readBuf mem input (t + 2))
  rw [← (forLoop_sampleStep input output (t + 2) stage mem).1] at c0 c1 c2 c3 c4
  have hstep : (forLoop (sampleStep input output) (t + 2 + 1) (stage, mem)).2 output (t + 2) =
      (forLoop (sampleStep input output) (t + 2) (stage, mem)).1.a0 *
          (forLoop (sampleStep input output) (t + 2) (stage, mem)).2 input (t + 2) +
        (forLoop (sampleStep input output) (t + 2) (stage, mem)).1.a1 *
          (forLoop (sampleStep input output) (t + 2) (stage, mem)).1.prevIn.2 +
        (forLoop (sampleStep input output) (t + 2) (stage, mem)).1.a2 *
          (forLoop (sampleStep input output) (t + 2) (stage, mem)).1.prevIn.1 +
        (forLoop (sampleStep input output) (t + 2) (stage, mem)).1.b1 *
          (forLoop (sampleStep input output) (t + 2) (stage, mem)).1.prevOut.2 +
        (forLoop (sampleStep input output) (t + 2) (stage, mem)).1.b2 *
          (forLoop (sampleStep input output) (t + 2) (stage, mem)).1.prevOut.1 := by
    rw [forLoop]
    simp only [sampleStep, Mem.write_same]
  rw [hstep, c0, c1, c2, c3, c4, hin, hi2, ho2, hi1, ho1]

/-- A stage whose coefficients sum to 1 and whose history holds the constant `c`
maps the constant block `c` to itself and keeps its state. -/
theorem forLoop_sampleStep_constant (input output : Nat) (stage : FilterStage α) (mem : Mem α)
    (c : α) (n : Nat) (hsum : stage.a0 + stage.a1 + stage.a2 + stage.b1 + stage.b2 = 1)
    (hpi : stage.prevIn = (c, c)) (hpo : stage.prevOut = (c, c))
    (hmem : ∀ t, t < n → mem input t = c) :
    (forLoop (sampleStep input output) n (stage, mem)).1 = stage ∧
      ∀ t, t < n → (forLoop (sampleStep input output) n (stage, mem)).2 output t = c := by
  induction n with
  | zero =>
    refine ⟨rfl, fun t ht => ?_⟩
    omega
  | succ n ih =>
    obtain ⟨ih1, ih2⟩ := ih (fun t ht => hmem t (by omega))
    have hin : (forLoop (sampleStep input output) n (stage, mem)).2 input n = c := by
      rw [(forLoop_sampleStep input output n stage mem).2.2 input n (by omega)]
      exact hmem n (by omega)
    have hval : stage.a0 * c + stage.a1 * c + stage.a2 * c + stage.b1 * c + stage.b2 * c = c := by
      have : stage.a0 * c + stage.a1 * c + stage.a2 * c + stage.b1 * c + stage.b2 * c =
          (stage.a0 + stage.a1 + stage.a2 + stage.b1 + stage.b2) * c := by ring
      rw [this, hsum, one_mul]
    constructor
    · rw [forLoop]
      simp only [sampleStep, Mem.write_same, hin, ih1, hpi, hpo, hval]
      cases stage
      simp only at hpi hpo
      rw [hpi, hpo]
    · intro t ht
      rw [forLoop]
      simp only [sampleStep, hin, ih1, hpi, hpo, hval]
      by_cases htn : t = n
      · subst htn
        exact Mem.write_same _ _ _ _
      · rw [Mem.write_other _ _ _ _ _ _ (by omega)]
        exact ih2 t (by omega)

end Difference

section TrigClaims

/-- A sampled sine of any amplitude and phase obeys the three-term recurrence. -/
theorem sin_phase_step (w p : ℝ) (t : Nat) :
    Real.sin (w * ((t + 2 : Nat) : ℝ) + p) - 2 * Real.cos w * Real.sin (w * ((t + 1 : Nat) : ℝ) + p) +
      Real.sin (w * (t : ℝ) + p) = 0 := by
  have e1 : w * ((t + 2 : Nat) : ℝ) + p = (w * ((t + 1 : Nat) : ℝ) + p) + w := by
    push_cast
    ring
  have e2 : w * (t : ℝ) + p = (w * ((t + 1 : Nat) : ℝ) + p) - w := by
    push_cast
    ring
  rw [e1, e2, Real.sin_add, Real.sin_sub]
  ring

/-- Over exact real arithmetic (no rounding of the coefficients or of the
recurrence): for an active stage `i` as `updateParameters` derives it from
`f = (i + 1) * freq / sampleRate` with `2 - 2 * cos (2 * pi * f)` non-zero, and an
input block `x[t] = A * sin (2 * pi * f * t + p)`,
`a0 * x[t] + a1 * x[t-1] + a2 * x[t-2] = 0` for every `t >= 2`, and from the third
sample of a block on the freshly reset stage the sample loop gives
`output[t] = b1 * output[t-1] + b2 * output[t-2]`. -/
theorem notch_zero_on_harmonic (filt : Filter ℝ) (i : Nat) (A p : ℝ) (input output n : Nat)
    (mem : Mem ℝ) (hi : (i : Int) < filt.nstages)
    (hdiv : 2 - 2 * Real.cos (2 * Real.pi * (((i : ℝ) + 1) * filt.freq / filt.sampleRate)) ≠ 0)
    (hmem : ∀ t : Nat, mem input t =
      A * Real.sin (2 * Real.pi * (((i : ℝ) + 1) * filt.freq / filt.sampleRate) * (t : ℝ) + p)) :
    ((updateParameters Real.cos Real.pi filt).stages i).a0 *
          (2 - 2 * Real.cos (2 * Real.pi * (((i : ℝ) + 1) * filt.freq / filt.sampleRate))) =
        1 - 2 * (1 - 0.0009) *
          Real.cos (2 * Real.pi * (((i : ℝ) + 1) * filt.freq / filt.sampleRate)) +
          (1 - 0.0009) ^ 2 ∧
      (∀ t : Nat, 2 ≤ t →
        ((updateParameters Real.cos Real.pi filt).stages i).a0 * mem input t +
          ((updateParameters Real.cos Real.pi filt).stages i).a1 * mem input (t - 1) +
          ((updateParameters Real.cos Real.pi filt).stages i).a2 * mem input (t - 2) = 0) ∧
      (∀ t : Nat, 2 ≤ t → t < n →
        (forLoop (sampleStep input output) n
            ((updateParameters Real.cos Real.pi filt).stages i, mem)).2 output t =
          ((updateParameters Real.cos Real.pi filt).stages i).b1 *
              (forLoop (sampleStep input output) n
                ((updateParameters Real.cos Real.pi filt).stages i, mem)).2 output (t - 1) +
            ((updateParameters Real.cos Real.pi filt).stages i).b2 *
              (forLoop (sampleStep input output) n
                ((updateParameters Real.cos Real.pi filt).stages i, mem)).2 output (t - 2)) := by
  obtain ⟨c0, c1, c2, _, _⟩ :=
    updateStage_coefficients Real.cos Real.pi filt.freq filt.sampleRate i
  rw [← updateParameters_active Real.cos Real.pi filt i hi] at c0 c1 c2
  generalize (updateParameters Real.cos Real.pi filt).stages i = stage at c0 c1 c2 ⊢
  generalize hw : 2 * Real.pi * (((i : ℝ) + 1) * filt.freq / filt.sampleRate) = w
    at c0 c1 c2 hdiv hmem ⊢
  have hzero : ∀ t : Nat, stage.a0 * mem input (t + 2) + stage.a1 * mem input (t + 1) +
      stage.a2 * mem input t = 0 := by
    intro t
    rw [hmem (t + 2), hmem (t + 1), hmem t, c1, c2, c0]
    have h := sin_phase_step w p t
    linear_combination
      ((1 - 2 * (1 - 0.0009) * Real.cos w + (1 - 0.0009) ^ 2) / (2 - 2 * Real.cos w)) * A * h
  refine ⟨?_, fun t ht => ?_, fun t ht htn => ?_⟩
  · rw [c0]
    exact div_mul_cancel₀ _ hdiv
  · obtain ⟨m, rfl⟩ : ∃ m, t = m + 2 := ⟨t - 2, by omega⟩
    exact hzero m
  · obtain ⟨m, rfl⟩ : ∃ m, t = m + 2 := ⟨t - 2, by omega⟩
    rw [forLoop_sampleStep_difference input output stage mem m n htn]
    have e1 : m + 2 - 1 = m + 1 := by omega
    have e2 : m + 2 - 2 = m := by omega
    rw [e1, e2]
    linear_combination hzero m

/-- Over exact real arithmetic (no rounding of the coefficients or of the
recurrence): for an active stage `i` as `updateParameters` derives it with
`2 - 2 * cos (2 * pi * f)` non-zero, `a0 + a1 + a2 = 1 - b1 - b2`; hence that stage
with the history `prevIn = prevOut = (c, c)`, fed a block of samples `c` by the
sample loop, writes `c` to every output sample and keeps its state. -/
theorem dc_unity_gain (filt : Filter ℝ) (i : Nat) (c : ℝ) (input output n : Nat) (mem : Mem ℝ)
    (hi : (i : Int) < filt.nstages)
    (hdiv : 2 - 2 * Real.cos (2 * Real.pi * (((i : ℝ) + 1) * filt.freq / filt.sampleRate)) ≠ 0)
    (hmem : ∀ t, t < n → mem input t = c) :
    ((updateParameters Real.cos Real.pi filt).stages i).a0 +
          ((updateParameters Real.cos Real.pi filt).stages i).a1 +
          ((updateParameters Real.cos Real.pi filt).stages i).a2 =
        1 - ((updateParameters Real.cos Real.pi filt).stages i).b1 -
          ((updateParameters Real.cos Real.pi filt).stages i).b2 ∧
      (forLoop (sampleStep input output) n
          ({ (updateParameters Real.cos Real.pi filt).stages i with
              prevIn := (c, c), prevOut := (c, c) }, mem)).1 =
        { (updateParameters Real.cos Real.pi filt).stages i with
          prevIn := (c, c), prevOut := (c, c) } ∧
      ∀ t, t < n →
        (forLoop (sampleStep input output) n
          ({ (updateParameters Real.cos Real.pi filt).stages i with
              prevIn := (c, c), prevOut := (c, c) }, mem)).2 output t = c := by
  obtain ⟨c0, c1, c2, c3, c4⟩ :=
    updateStage_coefficients Real.cos Real.pi filt.freq filt.sampleRate i
  rw [← updateParameters_active Real.cos Real.pi filt i hi] at c0 c1 c2 c3 c4
  generalize (updateParameters Real.cos Real.pi filt).stages i = stage at c0 c1 c2 c3 c4 ⊢
  generalize 2 * Real.pi * (((i : ℝ) + 1) * filt.freq / filt.sampleRate) = w
    at c0 c1 c2 c3 c4 hdiv
  have hsum : stage.a0 + stage.a1 + stage.a2 = 1 - stage.b1 - stage.b2 := by
    rw [c0, c1, c2, c3, c4]
    field_simp
    ring
  refine ⟨hsum, ?_⟩
  exact forLoop_sampleStep_constant input output _ mem c n (by simp only; linarith) rfl rfl hmem

end TrigClaims

/-! ### C6, general clause: the transient of a cascade decays -/

section Decay

/-- An elementary inequality between consecutive powers. -/
theorem pow_succ_bound (t m : Nat) :
    ((t : ℝ) + 1) ^ (m + 1) + ((t : ℝ) + 2) ^ m ≤ ((t : ℝ) + 2) ^ (m + 1) := by
  have h1 : ((t : ℝ) + 1) ^ (m + 1) ≤ ((t : ℝ) + 1) * ((t : ℝ) + 2) ^ m := by
    rw [pow_succ, mul_comm]
    apply mul_le_mul_of_nonneg_left _ (by positivity)
    exact pow_le_pow_left₀ (by positivity) (by linarith) m
  have h2 : ((t : ℝ) + 2) ^ (m + 1) = ((t : ℝ) + 1) * ((t : ℝ) + 2) ^ m + ((t : ℝ) + 2) ^ m := by
    ring
  linarith

/-- A first-order complex recurrence `w (t + 1) = q * w t + g (t + 1)` with
`‖q‖ = R`, driven by `g` with `‖g t‖ <= D * (t + 1)^m * R^t`, stays below
`D * (t + 1)^(m + 1) * R^t`. -/
theorem one_pole_bound (q : ℂ) (R D : ℝ) (m n : Nat) (hq : ‖q‖ = R) (hR : 0 ≤ R) (hD : 0 ≤ D)
    (w g : Nat → ℂ) (h0 : 0 < n → w 0 = g 0)
    (hstep : ∀ t, t + 1 < n → w (t + 1) = q * w t + g (t + 1))
    (hg : ∀ t, t < n → ‖g t‖ ≤ D * ((t : ℝ) + 1) ^ m * R ^ t) :
    ∀ t, t < n → ‖w t‖ ≤ D * ((t : ℝ) + 1) ^ (m + 1) * R ^ t := by
  intro t
  induction t with
  | zero =>
    intro ht
    rw [h0 ht]
    have := hg 0 ht
    simpa using this
  | succ t ih =>
    intro ht
    have ih' := ih (by omega)
    have hgt := hg (t + 1) ht
    rw [hstep t ht]
    have hb := pow_succ_bound t m
    have hRt : 0 ≤ R ^ (t + 1) := pow_nonneg hR _
    calc ‖q * w t + g (t + 1)‖ ≤ ‖q * w t‖ + ‖g (t + 1)‖ := norm_add_le _ _
      _ = R * ‖w t‖ + ‖g (t + 1)‖ := by rw [norm_mul, hq]
      _ ≤ R * (D * ((t : ℝ) + 1) ^ (m + 1) * R ^ t) +
            D * (((t + 1 : Nat) : ℝ) + 1) ^ m * R ^ (t + 1) := by
          have := mul_le_mul_of_nonneg_left ih' hR
          linarith
      _ = D * R ^ (t + 1) * (((t : ℝ) + 1) ^ (m + 1) + ((t : ℝ) + 2) ^ m) := by
          push_cast
          ring
      _ ≤ D * R ^ (t + 1) * ((t : ℝ) + 2) ^ (m + 1) :=
          mul_le_mul_of_nonneg_left hb (mul_nonneg hD hRt)
      _ = D * (((t + 1 : Nat) : ℝ) + 1) ^ (m + 1) * R ^ (t + 1) := by
          push_cast
          ring

/-- A real second-order recurrence `y (t + 2) = u (t + 2) + 2 * R * c * y (t + 1)
- R^2 * y t` with `|c| <= 1` (poles of modulus `R`), started from rest and driven
by `u` with `|u t| <= D * (t + 1)^m * R^t`, stays below `D * (t + 1)^(m + 2) * R^t`. -/
theorem two_pole_bound (R c D : ℝ) (m n : Nat) (hR : 0 ≤ R) (hc : |c| ≤ 1) (hD : 0 ≤ D)
    (y u : Nat → ℝ) (h0 : 0 < n → y 0 = u 0) (h1 : 1 < n → y 1 = u 1 + 2 * R * c * y 0)
    (hstep : ∀ t, t + 2 < n → y (t + 2) = u (t + 2) + 2 * R * c * y (t + 1) + -R ^ 2 * y t)
    (hu : ∀ t, t < n → |u t| ≤ D * ((t : ℝ) + 1) ^ m * R ^ t) :
    ∀ t, t < n → |y t| ≤ D * ((t : ℝ) + 1) ^ (m + 2) * R ^ t := by
  have hs : 0 ≤ 1 - c ^ 2 := by
    have := (sq_le_one_iff_abs_le_one c).mpr hc
    linarith
  have hsq : Real.sqrt (1 - c ^ 2) ^ 2 = 1 - c ^ 2 := Real.sq_sqrt hs
  have hnorm : ∀ s : ℝ, s ^ 2 = 1 - c ^ 2 →
      ‖((R * c : ℝ) : ℂ) + ((R * s : ℝ) : ℂ) * Complex.I‖ = R := by
    intro s hs2
    rw [Complex.norm_eq_abs, Complex.abs_add_mul_I]
    have : (R * c) ^ 2 + (R * s) ^ 2 = R ^ 2 := by
      have : (R * c) ^ 2 + (R * s) ^ 2 = R ^ 2 * (c ^ 2 + s ^ 2) := by ring
      rw [this, hs2]
      ring
    rw [this, Real.sqrt_sq hR]
  have hneg : (-Real.sqrt (1 - c ^ 2)) ^ 2 = 1 - c ^ 2 := by rw [neg_sq, hsq]
  have hp := hnorm (Real.sqrt (1 - c ^ 2)) hsq
  have hq := hnorm (-Real.sqrt (1 - c ^ 2)) hneg
  generalize Real.sqrt (1 - c ^ 2) = s at hsq hp hq
  have hsum : (((R * c : ℝ) : ℂ) + ((R * s : ℝ) : ℂ) * Complex.I) +
      (((R * c : ℝ) : ℂ) + ((R * -s : ℝ) : ℂ) * Complex.I) = ((2 * R * c : ℝ) : ℂ) := by
    push_cast
    ring
  have hprod : (((R * c : ℝ) : ℂ) + ((R * s : ℝ) : ℂ) * Complex.I) *
      (((R * c : ℝ) : ℂ) + ((R * -s : ℝ) : ℂ) * Complex.I) = ((R ^ 2 : ℝ) : ℂ) := by
    have e : (R : ℂ) ^ 2 = (R : ℂ) ^ 2 * ((c : ℂ) ^ 2 + (s : ℂ) ^ 2) := by
      have : (c : ℂ) ^ 2 + (s : ℂ) ^ 2 = 1 := by
        have : c ^ 2 + s ^ 2 = 1 := by linarith
        exact_mod_cast this
      rw [this, mul_one]
    push_cast
    rw [e]
    ring_nf
    rw [Complex.I_sq]
    ring
  generalize ((R * c : ℝ) : ℂ) + ((R * s : ℝ) : ℂ) * Complex.I = p at hp hsum hprod
  generalize ((R * c : ℝ) : ℂ) + ((R * -s : ℝ) : ℂ) * Complex.I = q at hq hsum hprod
  have hw := one_pole_bound q R D m n hq hR hD
    (fun t => if t = 0 then (y 0 : ℂ) else (y t : ℂ) - p * (y (t - 1) : ℂ))
    (fun t => (u t : ℂ)) (fun h => by simp [h0 h]) ?_ ?_
  · have hy := one_pole_bound p R D (m + 1) n hp hR hD (fun t => (y t : ℂ))
      (fun t => if t = 0 then (y 0 : ℂ) else (y t : ℂ) - p * (y (t - 1) : ℂ)) (fun _ => by simp)
      (fun t _ => by simp) hw
    intro t ht
    have := hy t ht
    simpa using this
  · intro t ht
    rcases t with _ | t
    · have e := h1 (by omega)
      have : ((y 1 : ℝ) : ℂ) = (u 1 : ℂ) + ((2 * R * c : ℝ) : ℂ) * (y 0 : ℂ) := by
        rw [e]
        push_cast
        ring
      simp only [zero_add, one_ne_zero, if_false, if_true, Nat.sub_self]
      rw [this, ← hsum]
      ring
    · have e := hstep t (by omega)
      have : ((y (t + 2) : ℝ) : ℂ) = (u (t + 2) : ℂ) + ((2 * R * c : ℝ) : ℂ) * (y (t + 1) : ℂ) -
          ((R ^ 2 : ℝ) : ℂ) * (y t : ℂ) := by
        rw [e]
        push_cast
        ring
      simp only [Nat.succ_ne_zero, if_false, Nat.add_sub_cancel]
      rw [show t + 1 + 1 = t + 2 from rfl, this, ← hsum, ← hprod]
      ring
  · intro t ht
    have := hu t ht
    simpa using this

end Decay
section Bridge

theorem readBuf_getD {α : Type} [Zero α] (mem : Mem α) (p n t : Nat) (ht : t < n) :
    (readBuf mem p n).getD t 0 = mem p t := by
  have hlen : t < (readBuf mem p n).length := by simp [readBuf, ht]
  rw [List.getD_eq_getElem _ _ hlen]
  simp [readBuf]

theorem readBuf_of_list {α : Type} [Zero α] (xs : List α) (p : Nat) :
    readBuf (fun _ t => xs.getD t 0) p xs.length = xs := by
  apply List.ext_getElem
  · simp [readBuf]
  · intro i h1 h2
    simp [readBuf, List.getElem?_eq_getElem h2]

variable {α : Type} [LinearOrderedField α]

/-- The first two samples that the sample loop writes on a stage with zero
history. -/
theorem forLoop_sampleStep_first_two (input output : Nat) (stage : FilterStage α)
    (mem : Mem α) (n : Nat) (hpi : stage.prevIn = (0, 0)) (hpo : stage.prevOut = (0, 0)) :
    (0 < n → (forLoop (sampleStep input output) n (stage, mem)).2 output 0 =
        stage.a0 * mem input 0) ∧
      (1 < n → (forLoop (sampleStep input output) n (stage, mem)).2 output 1 =
        stage.a0 * mem input 1 + stage.a1 * mem input 0 +
          stage.b1 * (forLoop (sampleStep input output) n (stage, mem)).2 output 0) := by
  have hw : ∀ v : α, (mem.write output 0 v) input 1 = mem input 1 := fun v =>
    Mem.write_other _ _ _ _ _ _ (by omega)
  constructor
  · intro h
    rw [forLoop_sampleStep_stable input output stage mem 0 n h]
    simp [forLoop, sampleStep, hpi, hpo]
  · intro h
    rw [forLoop_sampleStep_stable input output stage mem 1 n h,
      forLoop_sampleStep_stable input output stage mem 0 n (by omega)]
    simp [forLoop, sampleStep, hpi, hpo, hw]

end Bridge

section StageDecay

/-- One freshly reset stage with poles of modulus `R` maps a block bounded by
`C * (t + 1)^m * R^t` to a block bounded by `G * C * (t + 1)^(m + 2) * R^t`, where
`G = |a0| + |a1| / R + |a2| / R^2`. -/
theorem forLoop_sampleStep_decay (input output n : Nat) (stage : FilterStage ℝ) (mem : Mem ℝ)
    (R c C : ℝ) (m : Nat) (hR0 : 0 < R) (hc : |c| ≤ 1) (hC : 0 ≤ C)
    (hpi : stage.prevIn = (0, 0)) (hpo : stage.prevOut = (0, 0))
    (hb1 : stage.b1 = 2 * R * c) (hb2 : stage.b2 = -R ^ 2)
    (hx : ∀ t, t < n → |mem input t| ≤ C * ((t : ℝ) + 1) ^ m * R ^ t) :
    ∀ t, t < n → |(forLoop (sampleStep input output) n (stage, mem)).2 output t| ≤
      (|stage.a0| + |stage.a1| / R + |stage.a2| / R ^ 2) * C * ((t : ℝ) + 1) ^ (m + 2) * R ^ t := by
  obtain ⟨f0, f1⟩ := forLoop_sampleStep_first_two input output stage mem n hpi hpo
  have hG1 : 0 ≤ |stage.a1| / R := div_nonneg (abs_nonneg _) hR0.le
  have hG2 : 0 ≤ |stage.a2| / R ^ 2 := div_nonneg (abs_nonneg _) (by positivity)
  have hmono : ∀ s t : Nat, s ≤ t → t < n →
      |mem input s| ≤ C * ((t : ℝ) + 1) ^ m * R ^ s := by
    intro s t hst ht
    refine le_trans (hx s (by omega)) ?_
    apply mul_le_mul_of_nonneg_right _ (pow_nonneg hR0.le _)
    apply mul_le_mul_of_nonneg_left _ hC
    apply pow_le_pow_left₀ (by positivity)
    have : (s : ℝ) ≤ (t : ℝ) := by exact_mod_cast hst
    linarith
  apply two_pole_bound R c _ m n hR0.le hc
    (mul_nonneg (add_nonneg (add_nonneg (abs_nonneg _) hG1) hG2) hC)
    (fun t => (forLoop (sampleStep input output) n (stage, mem)).2 output t)
    (fun t => stage.a0 * mem input t + stage.a1 * (if 1 ≤ t then mem input (t - 1) else 0) +
      stage.a2 * (if 2 ≤ t then mem input (t - 2) else 0))
  · intro h
    simp [f0 h]
  · intro h
    simp [f1 h, hb1]
  · intro t ht
    simp only [forLoop_sampleStep_difference input output stage mem t n ht, hb1, hb2]
    have e1 : 1 ≤ t + 2 := by omega
    have e2 : 2 ≤ t + 2 := by omega
    simp only [e1, e2, if_true, Nat.add_sub_cancel]
    have e3 : t + 2 - 1 = t + 1 := by omega
    rw [e3]
  · intro t ht
    have hB : 0 ≤ C * ((t : ℝ) + 1) ^ m := mul_nonneg hC (by positivity)
    have h0 : |stage.a0 * mem input t| ≤ |stage.a0| * (C * ((t : ℝ) + 1) ^ m * R ^ t) := by
      rw [abs_mul]
      exact mul_le_mul_of_nonneg_left (hx t ht) (abs_nonneg _)
    have h1 : |stage.a1 * (if 1 ≤ t then mem input (t - 1) else 0)| ≤
        |stage.a1| / R * (C * ((t : ℝ) + 1) ^ m * R ^ t) := by
      rw [abs_mul]
      by_cases h : 1 ≤ t
      · obtain ⟨s, rfl⟩ : ∃ s, t = s + 1 := ⟨t - 1, by omega⟩
        simp only [h, if_true, Nat.add_sub_cancel]
        have := mul_le_mul_of_nonneg_left (hmono s (s + 1) (by omega) ht) (abs_nonneg stage.a1)
        refine le_trans this (le_of_eq ?_)
        field_simp
        ring
      · simp only [h, if_false, abs_zero, mul_zero]
        exact mul_nonneg hG1 (mul_nonneg hB (pow_nonneg hR0.le _))
    have h2 : |stage.a2 * (if 2 ≤ t then mem input (t - 2) else 0)| ≤
        |stage.a2| / R ^ 2 * (C * ((t : ℝ) + 1) ^ m * R ^ t) := by
      rw [abs_mul]
      by_cases h : 2 ≤ t
      · obtain ⟨s, rfl⟩ : ∃ s, t = s + 2 := ⟨t - 2, by omega⟩
        simp only [h, if_true, Nat.add_sub_cancel]
        have := mul_le_mul_of_nonneg_left (hmono s (s + 2) (by omega) ht) (abs_nonneg stage.a2)
        refine le_trans this (le_of_eq ?_)
        field_simp
        ring
      · simp only [h, if_false, abs_zero, mul_zero]
        exact mul_nonneg hG2 (mul_nonneg hB (pow_nonneg hR0.le _))
    calc |stage.a0 * mem input t + stage.a1 * (if 1 ≤ t then mem input (t - 1) else 0) +
          stage.a2 * (if 2 ≤ t then mem input (t - 2) else 0)|
        ≤ |stage.a0 * mem input t| + |stage.a1 * (if 1 ≤ t then mem input (t - 1) else 0)| +
          |stage.a2 * (if 2 ≤ t then mem input (t - 2) else 0)| := abs_add_three _ _ _
      _ ≤ (|stage.a0| + |stage.a1| / R + |stage.a2| / R ^ 2) * C * ((t : ℝ) + 1) ^ m * R ^ t := by
          linarith

/-- The stage bound on sequences. -/
theorem stageSeq_decay (stage : FilterStage ℝ) (xs : List ℝ) (R c C : ℝ) (m : Nat)
    (hR0 : 0 < R) (hc : |c| ≤ 1) (hC : 0 ≤ C)
    (hpi : stage.prevIn = (0, 0)) (hpo : stage.prevOut = (0, 0))
    (hb1 : stage.b1 = 2 * R * c) (hb2 : stage.b2 = -R ^ 2)
    (hx : ∀ t, t < xs.length → |xs.getD t 0| ≤ C * ((t : ℝ) + 1) ^ m * R ^ t) :
    ∀ t, t < xs.length → |(stageSeq stage xs).getD t 0| ≤
      (|stage.a0| + |stage.a1| / R + |stage.a2| / R ^ 2) * C * ((t : ℝ) + 1) ^ (m + 2) * R ^ t := by
  intro t ht
  have hloop := (forLoop_sampleStep 0 1 xs.length stage (fun _ t => xs.getD t 0)).2.1
  rw [readBuf_of_list] at hloop
  rw [← hloop, readBuf_getD _ _ _ _ ht]
  exact forLoop_sampleStep_decay 0 1 xs.length stage _ R c C m hR0 hc hC hpi hpo hb1 hb2 hx t ht

theorem cascadeSeq_length {α : Type} [LinearOrderedField α] (stages : List (FilterStage α))
    (xs : List α) : (cascadeSeq stages xs).length = xs.length := by
  induction stages generalizing xs with
  | nil => rfl
  | cons stage stages ih => rw [cascadeSeq_cons, ih, stageSeq_length]

/-- A cascade of freshly reset stages with poles of modulus `R` maps a block
bounded by `C * (t + 1)^m * R^t` to a block bounded by
`F * C * (t + 1)^(m + k) * R^t`, where `F` and `k` depend on the stages only. -/
theorem cascadeSeq_decay (R : ℝ) (hR0 : 0 < R) (stages : List (FilterStage ℝ))
    (hst : ∀ stage ∈ stages, stage.prevIn = (0, 0) ∧ stage.prevOut = (0, 0) ∧
      ∃ c : ℝ, |c| ≤ 1 ∧ stage.b1 = 2 * R * c ∧ stage.b2 = -R ^ 2) :
    ∃ (F : ℝ) (k : Nat), 0 ≤ F ∧ ∀ (C : ℝ) (m : Nat) (xs : List ℝ), 0 ≤ C →
      (∀ t, t < xs.length → |xs.getD t 0| ≤ C * ((t : ℝ) + 1) ^ m * R ^ t) →
      ∀ t, t < xs.length →
        |(cascadeSeq stages xs).getD t 0| ≤ F * C * ((t : ℝ) + 1) ^ (m + k) * R ^ t := by
  induction stages with
  | nil =>
    refine ⟨1, 0, zero_le_one, fun C m xs _ hx t ht => ?_⟩
    rw [cascadeSeq_nil, one_mul]
    exact hx t ht
  | cons stage stages ih =>
    obtain ⟨F, k, hF, hbound⟩ := ih (fun s hs => hst s (List.mem_cons_of_mem _ hs))
    obtain ⟨hpi, hpo, c, hc, hb1, hb2⟩ := hst stage (List.mem_cons_self _ _)
    have hG : 0 ≤ |stage.a0| + |stage.a1| / R + |stage.a2| / R ^ 2 :=
      add_nonneg (add_nonneg (abs_nonneg _) (div_nonneg (abs_nonneg _) hR0.le))
        (div_nonneg (abs_nonneg _) (by positivity))
    refine ⟨F * (|stage.a0| + |stage.a1| / R + |stage.a2| / R ^ 2), k + 2,
      mul_nonneg hF hG, fun C m xs hC hx t ht => ?_⟩
    rw [cascadeSeq_cons]
    have hlen : (stageSeq stage xs).length = xs.length := stageSeq_length stage xs
    have h := hbound ((|stage.a0| + |stage.a1| / R + |stage.a2| / R ^ 2) * C) (m + 2)
      (stageSeq stage xs) (mul_nonneg hG hC)
      (fun t ht => stageSeq_decay stage xs R c C m hR0 hc hC hpi hpo hb1 hb2 hx t
        (by rw [← hlen]; exact ht))
      t (by rw [hlen]; exact ht)
    have e : m + 2 + k = m + (k + 2) := by omega
    rw [e] at h
    refine le_trans h (le_of_eq ?_)
    ring

/-- A geometric sequence times a polynomial is eventually below any positive
bound. -/
theorem eventually_small (M R ε : ℝ) (k : Nat) (hR0 : 0 < R) (hR1 : R < 1) (hε : 0 < ε) :
    ∃ N : Nat, ∀ t : Nat, N ≤ t → M * ((t : ℝ) + 1) ^ k * R ^ t ≤ ε := by
  by_cases hM : M ≤ 0
  · refine ⟨0, fun t _ => ?_⟩
    have : M * (((t : ℝ) + 1) ^ k * R ^ t) ≤ 0 :=
      mul_nonpos_of_nonpos_of_nonneg hM (by positivity)
    linarith
  · have hM0 : 0 < M := not_le.mp hM
    have hlim := tendsto_pow_const_mul_const_pow_of_abs_lt_one k
      (show |R| < 1 by rw [abs_of_pos hR0]; exact hR1)
    obtain ⟨N, hN⟩ := (Metric.tendsto_atTop.mp hlim) (ε * R / M) (by positivity)
    refine ⟨N, fun t ht => ?_⟩
    have h := hN (t + 1) (by omega)
    rw [Real.dist_eq, sub_zero, abs_of_nonneg (by positivity)] at h
    push_cast at h
    have h2 : ((t : ℝ) + 1) ^ k * R ^ (t + 1) * M < ε * R := by
      rwa [lt_div_iff₀ hM0] at h
    have h3 : M * ((t : ℝ) + 1) ^ k * R ^ t * R < ε * R := by
      rw [pow_succ] at h2
      linarith
    exact le_of_lt (lt_of_mul_lt_mul_right h3 hR0.le)

/-- A freshly reset notch stage tuned to `w` and fed `A * sin (w * t + p)`: the
zero cancels the tone from the third sample on, and the output stays below
`3 * |K| * |A| / R * (t + 1)^2 * R^t`. -/
theorem forLoop_sampleStep_tone_decay (input output n : Nat) (stage : FilterStage ℝ)
    (mem : Mem ℝ) (K R w A p : ℝ) (hR0 : 0 < R) (hR1 : R ≤ 1)
    (hpi : stage.prevIn = (0, 0)) (hpo : stage.prevOut = (0, 0))
    (ha0 : stage.a0 = K) (ha1 : stage.a1 = -2 * K * Real.cos w) (ha2 : stage.a2 = K)
    (hb1 : stage.b1 = 2 * R * Real.cos w) (hb2 : stage.b2 = -R ^ 2)
    (hmem : ∀ t : Nat, mem input t = A * Real.sin (w * (t : ℝ) + p)) :
    ∀ t, t < n → |(forLoop (sampleStep input output) n (stage, mem)).2 output t| ≤
      3 * |K| * |A| / R * ((t : ℝ) + 1) ^ 2 * R ^ t := by
  obtain ⟨f0, f1⟩ := forLoop_sampleStep_first_two input output stage mem n hpi hpo
  have hKA : 0 ≤ |K| * |A| := mul_nonneg (abs_nonneg _) (abs_nonneg _)
  have hD : 0 ≤ 3 * |K| * |A| / R := div_nonneg (by linarith) hR0.le
  have hDR : 3 * |K| * |A| ≤ 3 * |K| * |A| / R := by
    rw [le_div_iff₀ hR0]
    nlinarith
  have hsin : ∀ x : ℝ, |K * (A * Real.sin x)| ≤ |K| * |A| := by
    intro x
    rw [abs_mul, abs_mul]
    have := Real.abs_sin_le_one x
    have hA := abs_nonneg A
    have hK := abs_nonneg K
    nlinarith [mul_le_mul_of_nonneg_left this hA]
  have h := two_pole_bound R (Real.cos w) (3 * |K| * |A| / R) 0 n hR0.le
    (Real.abs_cos_le_one w) hD
    (fun t => (forLoop (sampleStep input output) n (stage, mem)).2 output t)
    (fun t => if t = 0 then K * mem input 0
      else if t = 1 then K * mem input 1 + -2 * K * Real.cos w * mem input 0 else 0)
    ?_ ?_ ?_ ?_
  · intro t ht
    have := h t ht
    simpa using this
  · intro h
    simp [f0 h, ha0]
  · intro h
    simp [f1 h, ha0, ha1, hb1]
  · intro t ht
    have hz := sin_phase_step w p t
    simp only [forLoop_sampleStep_difference input output stage mem t n ht, ha0, ha1, ha2, hb1,
      hb2, hmem]
    have e0 : t + 2 ≠ 0 := by omega
    have e1 : t + 2 ≠ 1 := by omega
    simp only [e0, e1, if_false]
    linear_combination K * A * hz
  · intro t ht
    simp only [pow_zero, mul_one]
    rcases t with _ | _ | t
    · simp only [if_true, pow_zero, mul_one, hmem]
      exact le_trans (hsin _) (by linarith)
    · simp only [zero_add, one_ne_zero, if_false, if_true, pow_one, hmem]
      have e : 3 * |K| * |A| / R * R = 3 * |K| * |A| := by field_simp
      rw [e]
      have h1 := hsin (w * ((1 : Nat) : ℝ) + p)
      have h2 := hsin (w * ((0 : Nat) : ℝ) + p)
      have hc := Real.abs_cos_le_one w
      have h3 : |-2 * K * Real.cos w * (A * Real.sin (w * ((0 : Nat) : ℝ) + p))| ≤
          2 * (|K| * |A|) := by
        have : -2 * K * Real.cos w * (A * Real.sin (w * ((0 : Nat) : ℝ) + p)) =
            (-2 * Real.cos w) * (K * (A * Real.sin (w * ((0 : Nat) : ℝ) + p))) := by ring
        rw [this, abs_mul]
        have hc2 : |(-2 : ℝ) * Real.cos w| ≤ 2 := by
          rw [abs_mul]
          have : |(-2 : ℝ)| = 2 := by norm_num
          rw [this]
          linarith
        exact mul_le_mul hc2 h2 (abs_nonneg _) (by norm_num)
      exact le_trans (abs_add _ _) (by linarith)
    · have e0 : t + 1 + 1 ≠ 0 := by omega
      have e1 : t + 1 + 1 ≠ 1 := by omega
      simp only [e0, e1, if_false, abs_zero]
      exact mul_nonneg hD (pow_nonneg hR0.le _)

end StageDecay

section CascadeDecay

/-- A freshly configured cascade with `nstages >= 1` and
`sampleRate >= 4 * freq > 0`, fed a sine at `freq`: from some sample on, which
depends on the instance only, every output sample is at most a tenth of the
input amplitude. -/
theorem runFilter_tone_decay (filt : Filter ℝ) (hn : 1 ≤ filt.nstages) (hf : 0 < filt.freq)
    (hrate : 4 * filt.freq ≤ filt.sampleRate)
    (hfresh : ∀ i : Nat, (i : Int) < filt.nstages →
      filt.stages i = updateStage Real.cos Real.pi filt.freq filt.sampleRate i) :
    ∃ N : Nat, ∀ (A p : ℝ) (mem : Mem ℝ) (n t : Nat),
      (∀ s : Nat, mem filt.inputBuffer s =
        A * Real.sin (2 * Real.pi * (filt.freq / filt.sampleRate) * (s : ℝ) + p)) →
      N ≤ t → t < n →
      |(runFilter filt mem n).2 filt.outputBuffer t| ≤ 0.1 * |A| := by
  have hR0 : (0 : ℝ) < 1 - 0.0009 := by norm_num
  have hR1 : (1 - 0.0009 : ℝ) < 1 := by norm_num
  obtain ⟨k, hk⟩ : ∃ k, filt.nstages.toNat = k + 1 := ⟨filt.nstages.toNat - 1, by omega⟩
  have hg : ¬ filt.freq * ((0 + 1 : Nat) : ℝ) > filt.sampleRate / 2 := by
    push_cast
    linarith
  have hcount : runCount filt filt.nstages.toNat 0 = runCount filt k 1 + 1 := by
    rw [hk, runCount, if_neg hg]
  have hle := runCount_le filt k 1
  have hexec : executedStages filt =
      filt.stages 0 :: (List.range' 1 (runCount filt k 1)).map filt.stages := by
    rw [executedStages, hcount, List.range_eq_range', List.range'_succ, List.map_cons]
  have hlater : ∀ stage ∈ (List.range' 1 (runCount filt k 1)).map filt.stages,
      stage.prevIn = (0, 0) ∧ stage.prevOut = (0, 0) ∧
        ∃ c : ℝ, |c| ≤ 1 ∧ stage.b1 = 2 * (1 - 0.0009) * c ∧ stage.b2 = -(1 - 0.0009) ^ 2 := by
    intro stage hs
    obtain ⟨i, hi, rfl⟩ := List.mem_map.mp hs
    have hi2 := (List.mem_range'_1.mp hi).2
    rw [hfresh i (by omega)]
    obtain ⟨_, _, _, c3, c4⟩ :=
      updateStage_coefficients Real.cos Real.pi filt.freq filt.sampleRate i
    exact ⟨updateStage_prevIn .., updateStage_prevOut .., _, Real.abs_cos_le_one _, c3, c4⟩
  obtain ⟨F, j, hF, hbound⟩ := cascadeSeq_decay (1 - 0.0009) hR0 _ hlater
  obtain ⟨c0, c1, c2, c3, c4⟩ :=
    updateStage_coefficients Real.cos Real.pi filt.freq filt.sampleRate 0
  rw [← hfresh 0 (by omega)] at c0 c1 c2 c3 c4
  have hpi : (filt.stages 0).prevIn = (0, 0) := by
    rw [hfresh 0 (by omega)]
    exact updateStage_prevIn ..
  have hpo : (filt.stages 0).prevOut = (0, 0) := by
    rw [hfresh 0 (by omega)]
    exact updateStage_prevOut ..
  have hw : 2 * Real.pi * ((((0 : Nat) : ℝ) + 1) * filt.freq / filt.sampleRate) =
      2 * Real.pi * (filt.freq / filt.sampleRate) := by
    push_cast
    ring
  rw [hw] at c0 c1 c2 c3
  generalize hK : (1 - 2 * (1 - 0.0009) * Real.cos (2 * Real.pi * (filt.freq / filt.sampleRate)) +
    (1 - 0.0009) ^ 2) / (2 - 2 * Real.cos (2 * Real.pi * (filt.freq / filt.sampleRate))) = K
    at c0 c1 c2
  obtain ⟨N, hN⟩ := eventually_small (F * (3 * |K| / (1 - 0.0009))) (1 - 0.0009) 0.1 (2 + j)
    hR0 hR1 (by norm_num)
  refine ⟨N, fun A p mem n t hmem hNt htn => ?_⟩
  have hspec := (runFilter_spec filt mem n).1 hn
  rw [hexec, cascadeSeq_cons] at hspec
  rw [← readBuf_getD (runFilter filt mem n).2 filt.outputBuffer n t htn, hspec]
  have hfirst := (forLoop_sampleStep filt.inputBuffer filt.inputBuffer n (filt.stages 0) mem).2.1
  have hlen : (stageSeq (filt.stages 0) (readBuf mem filt.inputBuffer n)).length = n := by
    rw [stageSeq_length]
    simp [readBuf]
  have hstage : ∀ s, s < (stageSeq (filt.stages 0) (readBuf mem filt.inputBuffer n)).length →
      |(stageSeq (filt.stages 0) (readBuf mem filt.inputBuffer n)).getD s 0| ≤
        3 * |K| * |A| / (1 - 0.0009) * ((s : ℝ) + 1) ^ 2 * (1 - 0.0009) ^ s := by
    intro s hs
    rw [hlen] at hs
    rw [← hfirst, readBuf_getD _ filt.inputBuffer n s hs]
    exact forLoop_sampleStep_tone_decay filt.inputBuffer filt.inputBuffer n (filt.stages 0) mem K
      (1 - 0.0009) (2 * Real.pi * (filt.freq / filt.sampleRate)) A p hR0 hR1.le hpi hpo c0 c1 c2
      c3 c4 hmem s hs
  have hall := hbound (3 * |K| * |A| / (1 - 0.0009)) 2 _
    (div_nonneg (by positivity) hR0.le) hstage t (by rw [hlen]; exact htn)
  refine le_trans hall ?_
  have hsmall := hN t hNt
  have hA := abs_nonneg A
  have e : F * (3 * |K| * |A| / (1 - 0.0009)) * ((t : ℝ) + 1) ^ (2 + j) * (1 - 0.0009) ^ t =
      F * (3 * |K| / (1 - 0.0009)) * ((t : ℝ) + 1) ^ (2 + j) * (1 - 0.0009) ^ t * |A| := by
    ring
  rw [e]
  exact mul_le_mul_of_nonneg_right hsmall hA

end CascadeDecay

/-- C6 (amended): over the reals, a freshly configured cascade (every active stage
as `updateParameters` derives it) with `nstages >= 1` and
`sampleRate >= 4 * freq > 0`, fed a sine of any amplitude `A` and phase at exactly
`freq`, gives from some sample index on, which depends on the instance only,
output samples of magnitude at most `0.1 * |A|` (an attenuation of at least
20 dB after the startup transient); and with `sampleRate = 44100`, `freq = 1000`,
`nstages = 1` and the unit-amplitude sine, every output sample from index 2600
onward has magnitude at most 0.1. -/
theorem sine_rejection_settled :
    (∀ filt : Filter ℝ, 1 ≤ filt.nstages → 0 < filt.freq → 4 * filt.freq ≤ filt.sampleRate →
      (∀ i : Nat, (i : Int) < filt.nstages →
        filt.stages i = updateStage Real.cos Real.pi filt.freq filt.sampleRate i) →
      ∃ N : Nat, ∀ (A p : ℝ) (mem : Mem ℝ) (n t : Nat),
        (∀ s : Nat, mem filt.inputBuffer s =
          A * Real.sin (2 * Real.pi * (filt.freq / filt.sampleRate) * (s : ℝ) + p)) →
        N ≤ t → t < n →
        |(runFilter filt mem n).2 filt.outputBuffer t| ≤ 0.1 * |A|) ∧
      (∀ (raw : Filter ℝ) (n t : Nat), 2600 ≤ t → t < n →
        |(runFilter (configured Real.cos Real.pi raw (sineMem Real.sin Real.pi))
          (sineMem Real.sin Real.pi) n).2 1 t| ≤ 0.1) :=
  ⟨runFilter_tone_decay, fun raw n t h ht => (sine_rejection_concrete raw n t ht).2 h⟩

/-- C6 (amended) at the instance configured for 44100 Hz, 1000 Hz and one stage:
the hypotheses of the general clause hold there, and sample 2600 of a block of
3000 samples is within the bound. -/
theorem sine_rejection_settled_witness :
    (1 ≤ (configured Real.cos Real.pi (usedFilter ℝ) (sineMem Real.sin Real.pi)).nstages ∧
        0 < (configured Real.cos Real.pi (usedFilter ℝ) (sineMem Real.sin Real.pi)).freq ∧
        4 * (configured Real.cos Real.pi (usedFilter ℝ) (sineMem Real.sin Real.pi)).freq ≤
          (configured Real.cos Real.pi (usedFilter ℝ) (sineMem Real.sin Real.pi)).sampleRate ∧
        (∀ i : Nat,
          (i : Int) < (configured Real.cos Real.pi (usedFilter ℝ)
            (sineMem Real.sin Real.pi)).nstages →
          (configured Real.cos Real.pi (usedFilter ℝ) (sineMem Real.sin Real.pi)).stages i =
            updateStage Real.cos Real.pi
              (configured Real.cos Real.pi (usedFilter ℝ) (sineMem Real.sin Real.pi)).freq
              (configured Real.cos Real.pi (usedFilter ℝ) (sineMem Real.sin Real.pi)).sampleRate
              i) ∧
        ∃ N : Nat, ∀ (A p : ℝ) (mem : Mem ℝ) (n t : Nat),
          (∀ s : Nat,
            mem (configured Real.cos Real.pi (usedFilter ℝ)
                (sineMem Real.sin Real.pi)).inputBuffer s =
              A * Real.sin (2 * Real.pi *
                ((configured Real.cos Real.pi (usedFilter ℝ) (sineMem Real.sin Real.pi)).freq /
                  (configured Real.cos Real.pi (usedFilter ℝ)
                    (sineMem Real.sin Real.pi)).sampleRate) * (s : ℝ) + p)) →
          N ≤ t → t < n →
          |(runFilter (configured Real.cos Real.pi (usedFilter ℝ) (sineMem Real.sin Real.pi))
              mem n).2
            (configured Real.cos Real.pi (usedFilter ℝ)
              (sineMem Real.sin Real.pi)).outputBuffer t| ≤ 0.1 * |A|) ∧
      (2600 ≤ 2600 ∧ 2600 < 3000 ∧
        |(runFilter (configured Real.cos Real.pi (usedFilter ℝ) (sineMem Real.sin Real.pi))
          (sineMem Real.sin Real.pi) 3000).2 1 2600| ≤ 0.1) := by
  obtain ⟨_, _, hf, hs, hn, hst⟩ :=
    configured_fields Real.cos Real.sin Real.pi (usedFilter ℝ)
  have h1 : 1 ≤ (configured Real.cos Real.pi (usedFilter ℝ)
      (sineMem Real.sin Real.pi)).nstages := by rw [hn]
  have h2 : 0 < (configured Real.cos Real.pi (usedFilter ℝ)
      (sineMem Real.sin Real.pi)).freq := by rw [hf]; norm_num
  have h3 : 4 * (configured Real.cos Real.pi (usedFilter ℝ) (sineMem Real.sin Real.pi)).freq ≤
      (configured Real.cos Real.pi (usedFilter ℝ) (sineMem Real.sin Real.pi)).sampleRate := by
    rw [hf, hs]
    norm_num
  have h4 : ∀ i : Nat,
      (i : Int) < (configured Real.cos Real.pi (usedFilter ℝ)
        (sineMem Real.sin Real.pi)).nstages →
      (configured Real.cos Real.pi (usedFilter ℝ) (sineMem Real.sin Real.pi)).stages i =
        updateStage Real.cos Real.pi
          (configured Real.cos Real.pi (usedFilter ℝ) (sineMem Real.sin Real.pi)).freq
          (configured Real.cos Real.pi (usedFilter ℝ) (sineMem Real.sin Real.pi)).sampleRate
          i := by
    intro i hi
    rw [hn] at hi
    have hi0 : i = 0 := by omega
    subst hi0
    rw [hst, hf, hs]
  exact ⟨⟨h1, h2, h3, h4, sine_rejection_settled.1 _ h1 h2 h3 h4⟩,
    ⟨by decide, by decide, sine_rejection_settled.2 (usedFilter ℝ) 3000 2600 (by decide)
      (by decide)⟩⟩

end NotchHarmonics
